import Mathlib

/-!
Shallow embedding of the scheduling-resource accountant from
`src/ray/common/task/scheduling_resources.cc` (classes ResourceSet,
ResourceIds, ResourceIdSet, SchedulingResources), together with proofs
checking the natural-language specification against it.

Machine integers are modelled as `Int`; the C++ `RAY_CHECK` fatal paths are
modelled by `Option` (a `none` result means the process aborts).  `FixedPoint`
is not part of the given sources; it is modelled from the spec as an integer
numerator over the fixed denominator 10000.  The C++ `std::unordered_map`s
are embedded as association lists (well-formed states have pairwise distinct
keys, and all map operations below touch exactly the entries of their key).
-/

namespace RaySched

/-- Modelled from the spec: `FixedPoint` (its implementation file is not in
the provided sources) represents a rational with fixed denominator 10000 as
its integer numerator; add, subtract and comparison are exact, and a value is
zero iff the numerator is zero. -/
structure FixedPoint where
  i : Int
deriving DecidableEq

instance : Add FixedPoint := ⟨fun a b => ⟨a.i + b.i⟩⟩

instance : Sub FixedPoint := ⟨fun a b => ⟨a.i - b.i⟩⟩

instance : LE FixedPoint := ⟨fun a b => a.i ≤ b.i⟩

instance : LT FixedPoint := ⟨fun a b => a.i < b.i⟩

instance (a b : FixedPoint) : Decidable (a ≤ b) :=
  inferInstanceAs (Decidable (a.i ≤ b.i))

instance (a b : FixedPoint) : Decidable (a < b) :=
  inferInstanceAs (Decidable (a.i < b.i))

/-- Conversion of an integer quantity to `FixedPoint` (the implicit C++
constructor `FixedPoint(int64_t)`). -/
def FixedPoint.ofInt (n : Int) : FixedPoint := ⟨n * 10000⟩

/-- The C++ idiom `static_cast<int64_t>(x.Double())`: truncation toward 0. -/
def FixedPoint.truncToInt (x : FixedPoint) : Int := x.i.tdiv 10000

/-- `std::min` on FixedPoint. -/
def FixedPoint.fmin (a b : FixedPoint) : FixedPoint := if a ≤ b then a else b

/-- `ResourceIds::IsWhole(x.Double())`: the quantity is a whole integer. -/
def FixedPoint.isWholeFP (x : FixedPoint) : Bool := x.i % 10000 == 0

/-! ## Association-list helpers (the embedding of `std::unordered_map`) -/

/-- `map.count(n) != 0`. -/
def alContains {α : Type} (l : List (String × α)) (n : String) : Bool :=
  l.any (fun p => p.1 == n)

/-- `map.find(n)`, returning the mapped value. -/
def alGet {α : Type} (l : List (String × α)) (n : String) : Option α :=
  (l.find? (fun p => p.1 == n)).map (fun p => p.2)

/-- `map[n] = v`: replace the entry of key `n`, or append a new one. -/
def alSet {α : Type} (l : List (String × α)) (n : String) (v : α) :
    List (String × α) :=
  if alContains l n then l.map (fun p => if p.1 == n then (p.1, v) else p)
  else l ++ [(n, v)]

/-- `map.erase(n)`. -/
def alErase {α : Type} (l : List (String × α)) (n : String) :
    List (String × α) :=
  l.filter (fun p => p.1 != n)

/-- The list of keys of an association list. -/
def alKeys {α : Type} (l : List (String × α)) : List String :=
  l.map (fun p => p.1)

/-- First index satisfying a predicate (the C++ linear scans over vectors). -/
def findFirstIdx {α : Type} (pr : α → Bool) : List α → Option Nat
  | [] => none
  | a :: l => if pr a then some 0 else (findFirstIdx pr l).map (fun k => k + 1)

/-- The `std::swap` with the last element followed by `pop_back` used to
remove a fully debited fractional entry. -/
def swapRemove {α : Type} (l : List α) (j : Nat) : List α :=
  match l.getLast? with
  | none => l
  | some z => (l.set j z).dropLast

/-! ## ResourceSet -/

/-- `ResourceSet`: mapping from resource name to `FixedPoint` capacity. -/
structure ResourceSet where
  entries : List (String × FixedPoint)
deriving DecidableEq

def ResourceSet.keys (s : ResourceSet) : List String := alKeys s.entries

def ResourceSet.containsKey (s : ResourceSet) (n : String) : Bool :=
  alContains s.entries n

/-- `ResourceSet::GetResource`: stored value, or 0 when absent. -/
def ResourceSet.GetResource (s : ResourceSet) (n : String) : FixedPoint :=
  (alGet s.entries n).getD ⟨0⟩

/-- `map[k] = v` on the entries. -/
def ResourceSet.setResource (s : ResourceSet) (n : String) (v : FixedPoint) :
    ResourceSet :=
  ⟨alSet s.entries n v⟩

/-- `map.erase(k)` on the entries. -/
def ResourceSet.eraseResource (s : ResourceSet) (n : String) : ResourceSet :=
  ⟨alErase s.entries n⟩

/-- `ResourceSet::AddOrUpdateResource`: replaces the entry when the capacity
is positive, and otherwise does nothing. -/
def ResourceSet.AddOrUpdateResource (s : ResourceSet) (n : String)
    (capacity : FixedPoint) : ResourceSet :=
  if (⟨0⟩ : FixedPoint) < capacity then s.setResource n capacity else s

/-- `ResourceSet::DeleteResource`. -/
def ResourceSet.DeleteResource (s : ResourceSet) (n : String) : ResourceSet :=
  s.eraseResource n

/-- One iteration of the loop in `ResourceSet::SubtractResources`: subtract
when the key is present, then erase the entry when the (default-inserted)
value is `≤ 0`. -/
def ResourceSet.subtractOne (s : ResourceSet) (p : String × FixedPoint) :
    ResourceSet :=
  let s1 := if s.containsKey p.1 then s.setResource p.1 (s.GetResource p.1 - p.2)
            else s
  if s1.GetResource p.1 ≤ (⟨0⟩ : FixedPoint) then s1.eraseResource p.1 else s1

/-- `ResourceSet::SubtractResources` (clamped subtract). -/
def ResourceSet.SubtractResources (s other : ResourceSet) : ResourceSet :=
  other.entries.foldl ResourceSet.subtractOne s

/-- One iteration of the loop in `ResourceSet::SubtractResourcesStrict`:
the key must be present (fatal otherwise), the difference must be
non-negative (fatal otherwise), and an exact zero is erased. -/
def ResourceSet.subtractOneStrict (s : ResourceSet) (p : String × FixedPoint) :
    Option ResourceSet :=
  if s.containsKey p.1 then
    let nv := s.GetResource p.1 - p.2
    if nv < (⟨0⟩ : FixedPoint) then none
    else if nv = (⟨0⟩ : FixedPoint) then some (s.eraseResource p.1)
    else some (s.setResource p.1 nv)
  else none

/-- `ResourceSet::SubtractResourcesStrict`; `none` models the fatal
`RAY_CHECK` failures. -/
def ResourceSet.SubtractResourcesStrict (s other : ResourceSet) :
    Option ResourceSet :=
  other.entries.foldlM ResourceSet.subtractOneStrict s

/-- One iteration of `ResourceSet::AddResources` (outer join). -/
def ResourceSet.addOne (s : ResourceSet) (p : String × FixedPoint) :
    ResourceSet :=
  s.setResource p.1 (s.GetResource p.1 + p.2)

/-- `ResourceSet::AddResources`. -/
def ResourceSet.AddResources (s other : ResourceSet) : ResourceSet :=
  other.entries.foldl ResourceSet.addOne s

/-- One iteration of `ResourceSet::AddResourcesCapacityConstrained`: keys
present in `total` are added and capped at `total`'s value, other keys are
ignored. -/
def ResourceSet.addCappedOne (total : ResourceSet) (s : ResourceSet)
    (p : String × FixedPoint) : ResourceSet :=
  if total.containsKey p.1 then
    s.setResource p.1
      (FixedPoint.fmin (s.GetResource p.1 + p.2) (total.GetResource p.1))
  else s

/-- `ResourceSet::AddResourcesCapacityConstrained`. -/
def ResourceSet.AddResourcesCapacityConstrained (s other total : ResourceSet) :
    ResourceSet :=
  other.entries.foldl (ResourceSet.addCappedOne total) s

/-- `ResourceSet::IsSubset`. -/
def ResourceSet.IsSubset (s other : ResourceSet) : Bool :=
  s.entries.all (fun p => decide (p.2 ≤ other.GetResource p.1))

/-- Well-formedness of a `ResourceSet` (the C++ map invariants): pairwise
distinct keys and strictly positive stored values. -/
def ResourceSet.Wf (s : ResourceSet) : Prop :=
  s.keys.Nodup ∧ ∀ p ∈ s.entries, (⟨0⟩ : FixedPoint) < p.2

instance (s : ResourceSet) : Decidable s.Wf := by
  unfold ResourceSet.Wf; infer_instance

/-! ## ResourceIds -/

/-- `ResourceIds`: free whole slot ids, partially allocated slots with their
remaining fractions, the declared capacity, and the decrement backlog. -/
structure ResourceIds where
  whole_ids : List Int
  fractional_ids : List (Int × FixedPoint)
  total_capacity : FixedPoint
  decrement_backlog : Int
deriving DecidableEq

/-- `ResourceIds::TotalQuantity`: whole count plus fractional residuals. -/
def ResourceIds.TotalQuantity (s : ResourceIds) : FixedPoint :=
  ⟨(s.whole_ids.length : Int) * 10000 + (s.fractional_ids.map (fun p => p.2.i)).sum⟩

/-- `ResourceIds::TotalQuantityIsZero`: both sequences empty. -/
def ResourceIds.TotalQuantityIsZero (s : ResourceIds) : Bool :=
  s.whole_ids.isEmpty && s.fractional_ids.isEmpty

/-- `ResourceIds::ResourceIds(double)`: ids `0 .. n-1` free as wholes. -/
def ResourceIds.ofCapacity (n : Int) : ResourceIds :=
  let whole := (List.range n.toNat).map (fun k => (k : Int))
  { whole_ids := whole
    fractional_ids := []
    total_capacity := ⟨(whole.length : Int) * 10000⟩
    decrement_backlog := 0 }

/-- `ResourceIds::ResourceIds(const std::vector<int64_t> &)`. -/
def ResourceIds.ofWholeIds (l : List Int) : ResourceIds :=
  { whole_ids := l
    fractional_ids := []
    total_capacity := FixedPoint.ofInt (l.length : Int)
    decrement_backlog := 0 }

/-- The fractional-vector `ResourceIds` constructor. -/
def ResourceIds.ofFracIds (l : List (Int × FixedPoint)) : ResourceIds :=
  { whole_ids := []
    fractional_ids := l
    total_capacity := ⟨(l.map (fun p => p.2.i)).sum⟩
    decrement_backlog := 0 }

/-- The two-vector `ResourceIds` constructor (used by `Plus`). -/
def ResourceIds.ofBoth (w : List Int) (f : List (Int × FixedPoint)) :
    ResourceIds :=
  { whole_ids := w
    fractional_ids := f
    total_capacity := ⟨(w.length : Int) * 10000 + (f.map (fun p => p.2.i)).sum⟩
    decrement_backlog := 0 }

/-- `ResourceIds::Contains`; `none` models the fatal non-whole check. -/
def ResourceIds.Contains (s : ResourceIds) (q : FixedPoint) : Option Bool :=
  if FixedPoint.ofInt 1 ≤ q then
    if q.isWholeFP then
      some (decide (q.truncToInt ≤ (s.whole_ids.length : Int)))
    else none
  else
    some (!s.whole_ids.isEmpty || s.fractional_ids.any (fun p => decide (q ≤ p.2)))

/-- `ResourceIds::Acquire`: returns the granted `ResourceIds` and the updated
pool; `none` models the fatal `RAY_CHECK` failures. -/
def ResourceIds.Acquire (s : ResourceIds) (q : FixedPoint) :
    Option (ResourceIds × ResourceIds) :=
  if FixedPoint.ofInt 1 ≤ q then
    if q.isWholeFP then
      let n := q.truncToInt.toNat
      if (n : Int) ≤ (s.whole_ids.length : Int) then
        some (ResourceIds.ofWholeIds (s.whole_ids.reverse.take n),
              { s with whole_ids := s.whole_ids.take (s.whole_ids.length - n) })
      else none
    else none
  else
    match findFirstIdx (fun p => decide (q ≤ p.2)) s.fractional_ids with
    | some j =>
      match s.fractional_ids[j]? with
      | none => none
      | some p =>
        let newr := p.2 - q
        let frac := if newr = (⟨0⟩ : FixedPoint) then swapRemove s.fractional_ids j
                    else s.fractional_ids.set j (p.1, newr)
        some (ResourceIds.ofFracIds [(p.1, q)], { s with fractional_ids := frac })
    | none =>
      match s.whole_ids.getLast? with
      | none => none
      | some id =>
        some (ResourceIds.ofFracIds [(id, q)],
              { s with whole_ids := s.whole_ids.dropLast,
                       fractional_ids :=
                         s.fractional_ids ++ [(id, FixedPoint.ofInt 1 - q)] })

/-- The whole-id part of `ResourceIds::Release`: pay the decrement backlog
first, append the remaining returned ids. -/
def ResourceIds.releaseWhole (s : ResourceIds) (ids : List Int) : ResourceIds :=
  if s.decrement_backlog < (ids.length : Int) then
    { s with whole_ids := s.whole_ids ++ ids.drop s.decrement_backlog.toNat,
             decrement_backlog := 0 }
  else { s with decrement_backlog := s.decrement_backlog - (ids.length : Int) }

/-- One iteration of the fractional loop of `ResourceIds::Release`: merge into
the existing entry with the same id (fatal when the sum exceeds 1; a sum of
exactly 1 restores the id as whole or pays the backlog), or append. -/
def ResourceIds.releaseFracPair (s : ResourceIds) (p : Int × FixedPoint) :
    Option ResourceIds :=
  match findFirstIdx (fun e => e.1 == p.1) s.fractional_ids with
  | none => some { s with fractional_ids := s.fractional_ids ++ [p] }
  | some j =>
    match s.fractional_ids[j]? with
    | none => none
    | some e =>
      let merged := e.2 + p.2
      if FixedPoint.ofInt 1 < merged then none
      else if merged = FixedPoint.ofInt 1 then
        if 0 < s.decrement_backlog then
          some { s with fractional_ids := s.fractional_ids.eraseIdx j,
                        decrement_backlog := s.decrement_backlog - 1 }
        else
          some { s with whole_ids := s.whole_ids ++ [p.1],
                        fractional_ids := s.fractional_ids.eraseIdx j }
      else
        some { s with fractional_ids := s.fractional_ids.set j (e.1, merged) }

/-- `ResourceIds::Release`; `none` models the fatal residual-above-1 check. -/
def ResourceIds.Release (s : ResourceIds) (g : ResourceIds) :
    Option ResourceIds :=
  g.fractional_ids.foldlM ResourceIds.releaseFracPair (s.releaseWhole g.whole_ids)

/-- `ResourceIds::Plus`: release into a freshly constructed copy. -/
def ResourceIds.Plus (s g : ResourceIds) : Option ResourceIds :=
  (ResourceIds.ofBoth s.whole_ids s.fractional_ids).Release g

/-- `ResourceIds::IncreaseCapacity`: cancel the backlog first, then append
sentinel (`-1`) slots for the remaining increment. -/
def ResourceIds.IncreaseCapacity (s : ResourceIds) (inc : Int) : ResourceIds :=
  let actual := max 0 (inc - s.decrement_backlog)
  let backlog := max 0 (s.decrement_backlog - inc)
  if 0 < actual then
    { s with whole_ids := s.whole_ids ++ List.replicate actual.toNat (-1),
             total_capacity := s.total_capacity + FixedPoint.ofInt actual,
             decrement_backlog := backlog }
  else { s with decrement_backlog := backlog }

/-- `ResourceIds::DecreaseCapacity`: the truncated free quantity is acquired
and discarded; any excess joins the decrement backlog; the declared capacity
drops unconditionally. -/
def ResourceIds.DecreaseCapacity (s : ResourceIds) (dec : Int) :
    Option ResourceIds :=
  let avail := s.TotalQuantity.truncToInt
  let s1 := if avail < dec then
              { s with decrement_backlog := s.decrement_backlog + (dec - avail) }
            else s
  let amt := if avail < dec then avail else dec
  match s1.Acquire (FixedPoint.ofInt amt) with
  | none => none
  | some r =>
    some { r.2 with total_capacity := r.2.total_capacity - FixedPoint.ofInt dec }

/-- `ResourceIds::UpdateCapacity`; the delta is the truncated difference of
the new capacity and `total_capacity_.Double()`. -/
def ResourceIds.UpdateCapacity (s : ResourceIds) (newCap : Int) :
    Option ResourceIds :=
  if newCap < 0 then none
  else
    let delta := (newCap * 10000 - s.total_capacity.i).tdiv 10000
    if delta < 0 then s.DecreaseCapacity (-delta)
    else some (s.IncreaseCapacity delta)

/-! ## ResourceIdSet -/

/-- `ResourceIdSet`: mapping from resource name to `ResourceIds`. -/
structure ResourceIdSet where
  available_resources : List (String × ResourceIds)
deriving DecidableEq

def ResourceIdSet.keys (S : ResourceIdSet) : List String :=
  alKeys S.available_resources

def ResourceIdSet.lookup (S : ResourceIdSet) (n : String) : Option ResourceIds :=
  alGet S.available_resources n

def ResourceIdSet.setPool (S : ResourceIdSet) (n : String) (r : ResourceIds) :
    ResourceIdSet :=
  ⟨alSet S.available_resources n r⟩

def ResourceIdSet.erasePool (S : ResourceIdSet) (n : String) : ResourceIdSet :=
  ⟨alErase S.available_resources n⟩

/-- One iteration of the loop in `ResourceIdSet::Acquire`: the key must be
present (fatal otherwise), the per-resource acquire runs, and a pool that
became empty is erased. -/
def ResourceIdSet.acquireStep (st : ResourceIdSet × List (String × ResourceIds))
    (p : String × FixedPoint) :
    Option (ResourceIdSet × List (String × ResourceIds)) :=
  match st.1.lookup p.1 with
  | none => none
  | some pool =>
    match pool.Acquire p.2 with
    | none => none
    | some r =>
      let S1 := if r.2.TotalQuantityIsZero then st.1.erasePool p.1
                else st.1.setPool p.1 r.2
      some (S1, st.2 ++ [(p.1, r.1)])

/-- `ResourceIdSet::Acquire`: returns the updated set and the acquired map. -/
def ResourceIdSet.Acquire (S : ResourceIdSet) (req : ResourceSet) :
    Option (ResourceIdSet × ResourceIdSet) :=
  (req.entries.foldlM ResourceIdSet.acquireStep (S, [])).map
    (fun st => (st.1, ⟨st.2⟩))

/-- One iteration of the loop in `ResourceIdSet::Release`: released pools must
be non-empty (fatal otherwise); an absent key is created, a present one is
released into. -/
def ResourceIdSet.releaseStep (S : ResourceIdSet) (p : String × ResourceIds) :
    Option ResourceIdSet :=
  if p.2.TotalQuantityIsZero then none
  else
    match S.lookup p.1 with
    | none => some ⟨S.available_resources ++ [p]⟩
    | some pool => (pool.Release p.2).map (fun pool1 => S.setPool p.1 pool1)

/-- `ResourceIdSet::Release`. -/
def ResourceIdSet.Release (S g : ResourceIdSet) : Option ResourceIdSet :=
  g.available_resources.foldlM ResourceIdSet.releaseStep S

/-- `ResourceIdSet::AddOrUpdateResource`: update the capacity of an existing
pool, or create a fresh `ResourceIds(capacity)`. -/
def ResourceIdSet.AddOrUpdateResource (S : ResourceIdSet) (n : String)
    (capacity : Int) : Option ResourceIdSet :=
  match S.lookup n with
  | some pool => (pool.UpdateCapacity capacity).map (fun pool1 => S.setPool n pool1)
  | none =>
    some ⟨S.available_resources ++ [(n, ResourceIds.ofCapacity capacity)]⟩

/-- `ResourceIdSet::DeleteResource`. -/
def ResourceIdSet.DeleteResource (S : ResourceIdSet) (n : String) :
    ResourceIdSet :=
  S.erasePool n

/-! ## SchedulingResources -/

/-- `SchedulingResources`: the `total` / `available` / `load` triple plus the
normal-task usage view. -/
structure SchedulingResources where
  resources_total : ResourceSet
  resources_available : ResourceSet
  resources_load : ResourceSet
  resources_normal_tasks : ResourceSet
deriving DecidableEq

/-- The `SchedulingResources(const ResourceSet &total)` constructor. -/
def SchedulingResources.ofTotal (t : ResourceSet) : SchedulingResources :=
  ⟨t, t, ⟨[]⟩, ⟨[]⟩⟩

/-- `SchedulingResources::Release`: clamped add against `total`. -/
def SchedulingResources.Release (s : SchedulingResources) (r : ResourceSet) :
    SchedulingResources :=
  { s with resources_available :=
      s.resources_available.AddResourcesCapacityConstrained r s.resources_total }

/-- `SchedulingResources::Acquire`: strict subtract from `available`. -/
def SchedulingResources.Acquire (s : SchedulingResources) (r : ResourceSet) :
    Option SchedulingResources :=
  (s.resources_available.SubtractResourcesStrict r).map
    (fun a => { s with resources_available := a })

/-- `SchedulingResources::UpdateResourceCapacity`. -/
def SchedulingResources.UpdateResourceCapacity (s : SchedulingResources)
    (name : String) (capacity : Int) : SchedulingResources :=
  let new_capacity := FixedPoint.ofInt capacity
  let current_capacity := s.resources_total.GetResource name
  if (⟨0⟩ : FixedPoint) < current_capacity then
    let capacity_difference := new_capacity - current_capacity
    let current_available := s.resources_available.GetResource name
    let new_available :=
      if current_available + capacity_difference < (⟨0⟩ : FixedPoint) then
        (⟨0⟩ : FixedPoint)
      else current_available + capacity_difference
    { s with
        resources_total := s.resources_total.AddOrUpdateResource name new_capacity,
        resources_available :=
          s.resources_available.AddOrUpdateResource name new_available }
  else
    { s with
        resources_total := s.resources_total.AddOrUpdateResource name new_capacity,
        resources_available :=
          s.resources_available.AddOrUpdateResource name new_capacity }

/-! ## Predicates and relations used by the claims -/

/-- Observational state of a `ResourceIds` pool as the spec describes it:
same total quantity, and the same ids with the same residuals (order inside
the sequences is not significant). -/
def ResourceIds.ObsEq (a b : ResourceIds) : Prop :=
  a.TotalQuantity = b.TotalQuantity ∧
  a.whole_ids.Perm b.whole_ids ∧
  a.fractional_ids.Perm b.fractional_ids

instance (a b : ResourceIds) : Decidable (a.ObsEq b) := by
  unfold ResourceIds.ObsEq; infer_instance

/-- The ids of the fractional entries of a pool. -/
def fracKeys (s : ResourceIds) : List Int :=
  s.fractional_ids.map (fun p => p.1)

/-- The representation invariants of `ResourceIds` stated in the spec:
distinct fractional ids, no id both whole and fractional, and residuals in
the open interval (0, 1). -/
def ResourceIds.WfIds (s : ResourceIds) : Prop :=
  (fracKeys s).Nodup ∧
  (∀ i ∈ s.whole_ids, i ∉ fracKeys s) ∧
  (∀ p ∈ s.fractional_ids, (⟨0⟩ : FixedPoint) < p.2 ∧ p.2 < FixedPoint.ofInt 1)

instance (s : ResourceIds) : Decidable s.WfIds := by
  unfold ResourceIds.WfIds; infer_instance

/-- The ids of a list that are not the dynamic-capacity sentinel `-1`. -/
def nonSentinel (l : List Int) : List Int :=
  l.filter (fun i => i != -1)

/-- No double-holding for physical (non-sentinel) ids: such an id appears in
`whole_ids` at most once, in `fractional_ids` in at most one entry, and never
in both. -/
def ResourceIds.NoDouble (s : ResourceIds) : Prop :=
  (nonSentinel s.whole_ids).Nodup ∧
  (nonSentinel (fracKeys s)).Nodup ∧
  ∀ i ∈ s.whole_ids, i ≠ -1 → i ∉ fracKeys s

instance (s : ResourceIds) : Decidable s.NoDouble := by
  unfold ResourceIds.NoDouble; infer_instance

/-- A grant handed to `Release` is proper for pool `s`: it has no internal
double-holding, its whole ids are not currently held free by `s`, and its
fractional ids are not whole in `s` (they may merge with fractional entries
of `s`). -/
def ResourceIds.GrantOk (s g : ResourceIds) : Prop :=
  g.NoDouble ∧
  (∀ i ∈ g.whole_ids, i ≠ -1 → i ∉ s.whole_ids ∧ i ∉ fracKeys s) ∧
  (∀ i ∈ fracKeys g, i ≠ -1 → i ∉ s.whole_ids)

instance (s g : ResourceIds) : Decidable (s.GrantOk g) := by
  unfold ResourceIds.GrantOk; infer_instance

/-- One public mutating operation on a `ResourceIds` pool (`Contains` is a
pure query and `Plus` mutates only a copy). -/
inductive ResourceIds.Step : ResourceIds → ResourceIds → Prop where
  | acquire (s : ResourceIds) (q : FixedPoint) (g s1 : ResourceIds) :
      s.Acquire q = some (g, s1) → ResourceIds.Step s s1
  | release (s g s1 : ResourceIds) :
      s.GrantOk g → s.Release g = some s1 → ResourceIds.Step s s1
  | update (s : ResourceIds) (n : Int) (s1 : ResourceIds) :
      s.UpdateCapacity n = some s1 → ResourceIds.Step s s1

/-- The `ResourceIdSet` mapping invariant: every present pool is non-empty. -/
def ResourceIdSet.NonEmptyInv (S : ResourceIdSet) : Prop :=
  ∀ pr ∈ S.available_resources, pr.2.TotalQuantityIsZero = false

instance (S : ResourceIdSet) : Decidable S.NonEmptyInv := by
  unfold ResourceIdSet.NonEmptyInv; infer_instance

/-- An aggregate-accounting operation on `SchedulingResources`. -/
inductive SchedOp where
  | acq : ResourceSet → SchedOp
  | rel : ResourceSet → SchedOp
deriving DecidableEq

/-- Run one `SchedOp`. -/
def SchedulingResources.applyOp (s : SchedulingResources) :
    SchedOp → Option SchedulingResources
  | SchedOp.acq r => s.Acquire r
  | SchedOp.rel r => some (s.Release r)

/-- Run a sequence of `SchedOp`s. -/
def runOps (s : SchedulingResources) (ops : List SchedOp) :
    Option SchedulingResources :=
  ops.foldlM SchedulingResources.applyOp s

/-- The `ResourceSet` argument of an operation has non-negative quantities
(every C++ `ResourceSet` satisfies this). -/
def SchedOp.Nonneg : SchedOp → Prop
  | SchedOp.acq r => ∀ p ∈ r.entries, (⟨0⟩ : FixedPoint) ≤ p.2
  | SchedOp.rel _ => True

instance (op : SchedOp) : Decidable op.Nonneg := by
  cases op <;> · unfold SchedOp.Nonneg; infer_instance

/-- `a ⊆ t` as the spec means it: per key, `a`'s quantity never exceeds
`t`'s (missing keys count as 0). -/
def Covered (a t : ResourceSet) : Prop :=
  ∀ n, a.GetResource n ≤ t.GetResource n

/-- The documented precondition of `SubtractResourcesStrict`: every key of
`other` exists in `self` with at least the subtracted quantity. -/
def ResourceSet.StrictPre (s other : ResourceSet) : Prop :=
  ∀ p ∈ other.entries, s.containsKey p.1 = true ∧ p.2 ≤ s.GetResource p.1

instance (s other : ResourceSet) : Decidable (s.StrictPre other) := by
  unfold ResourceSet.StrictPre; infer_instance

/-- The pool used by the C3 counterexample: one free whole id while a
decrement backlog of 1 is pending. -/
def backlogPool : ResourceIds :=
  { whole_ids := [0]
    fractional_ids := []
    total_capacity := ⟨10000⟩
    decrement_backlog := 1 }

/-! ## Lemmas: association lists -/

theorem FixedPoint.ext_iff (a b : FixedPoint) : a = b ↔ a.i = b.i := by
  constructor
  · intro h
    exact congrArg FixedPoint.i h
  · intro h
    cases a
    cases b
    simpa using h

theorem option_none_bind_eq {α β : Type} (f : α → Option β) :
    ((none : Option α) >>= f) = none := rfl

theorem option_some_bind_eq {α β : Type} (a : α) (f : α → Option β) :
    ((some a : Option α) >>= f) = f a := rfl

theorem option_bind_eq_some {α β : Type} (o : Option α) (f : α → Option β)
    (b : β) (h : o >>= f = some b) : ∃ a, o = some a ∧ f a = some b := by
  cases o with
  | none => exact Option.noConfusion (show (none : Option β) = some b from h)
  | some a => exact ⟨a, rfl, show f a = some b from h⟩

theorem alGet_cons_pos {α : Type} (a : String × α) (l : List (String × α))
    (n : String) (h : a.1 = n) : alGet (a :: l) n = some a.2 := by
  simp [alGet, List.find?_cons_of_pos, h]

theorem alGet_cons_neg {α : Type} (a : String × α) (l : List (String × α))
    (n : String) (h : ¬ a.1 = n) : alGet (a :: l) n = alGet l n := by
  simp only [alGet]
  rw [List.find?_cons_of_neg]
  simpa using h

theorem alContains_eq_isSome {α : Type} (l : List (String × α)) (n : String) :
    alContains l n = (alGet l n).isSome := by
  induction l with
  | nil => rfl
  | cons a l ih =>
    by_cases h : a.1 = n
    · simp [alContains, alGet_cons_pos a l n h, h]
    · rw [alGet_cons_neg a l n h]
      have hb : (a.1 == n) = false := by simp [h]
      simp only [alContains, List.any_cons, hb, Bool.false_or]
      exact ih

theorem mem_alKeys_iff {α : Type} (l : List (String × α)) (n : String) :
    n ∈ alKeys l ↔ alContains l n = true := by
  induction l with
  | nil => simp [alKeys, alContains]
  | cons a l ih =>
    by_cases h : a.1 = n
    · simp [alKeys, alContains, h]
    · have h2 : ¬ n = a.1 := fun hh => h hh.symm
      simp only [alKeys, List.map_cons, List.mem_cons, alContains, List.any_cons]
      simp only [alKeys, alContains] at ih
      simp [h, h2, ih]

theorem alGet_append_of_not_contains {α : Type} (l1 l2 : List (String × α))
    (n : String) (h : alContains l1 n = false) :
    alGet (l1 ++ l2) n = alGet l2 n := by
  induction l1 with
  | nil => rfl
  | cons a l ih =>
    simp only [alContains, List.any_cons, Bool.or_eq_false_iff] at h
    have ha : ¬ a.1 = n := by simpa using h.1
    rw [List.cons_append, alGet_cons_neg a (l ++ l2) n ha]
    exact ih h.2

theorem alGet_set_self {α : Type} (l : List (String × α)) (n : String) (v : α) :
    alGet (alSet l n v) n = some v := by
  unfold alSet
  by_cases hc : alContains l n
  · rw [if_pos hc]
    induction l with
    | nil => simp [alContains] at hc
    | cons a l ih =>
      by_cases h : a.1 = n
      · have hmap : List.map (fun p => if (p.1 == n) = true then (p.1, v) else p)
            (a :: l) =
            (a.1, v) :: List.map (fun p => if (p.1 == n) = true then (p.1, v) else p) l := by
          simp [h]
        rw [hmap]
        exact alGet_cons_pos (a.1, v) _ n h
      · have hmap : List.map (fun p => if (p.1 == n) = true then (p.1, v) else p)
            (a :: l) =
            a :: List.map (fun p => if (p.1 == n) = true then (p.1, v) else p) l := by
          simp [h]
        rw [hmap, alGet_cons_neg a _ n h]
        simp only [alContains, List.any_cons] at hc
        exact ih (by simpa [alContains, h] using hc)
  · rw [if_neg hc]
    rw [alGet_append_of_not_contains _ _ _ (by simpa using hc)]
    exact alGet_cons_pos (n, v) [] n rfl

theorem alGet_append {α : Type} (l1 l2 : List (String × α)) (n : String) :
    alGet (l1 ++ l2) n = (alGet l1 n).or (alGet l2 n) := by
  induction l1 with
  | nil => simp [alGet]
  | cons a l ih =>
    by_cases ha : a.1 = n
    · rw [List.cons_append, alGet_cons_pos a (l ++ l2) n ha,
        alGet_cons_pos a l n ha]
      rfl
    · rw [List.cons_append, alGet_cons_neg a (l ++ l2) n ha,
        alGet_cons_neg a l n ha]
      exact ih

theorem alGet_set_ne {α : Type} (l : List (String × α)) (n : String) (v : α)
    (m : String) (h : m ≠ n) : alGet (alSet l n v) m = alGet l m := by
  unfold alSet
  by_cases hc : alContains l n
  · rw [if_pos hc]
    clear hc
    induction l with
    | nil => rfl
    | cons a l ih =>
      simp only [List.map_cons]
      by_cases ham : a.1 = m
      · have ha : ¬ a.1 = n := by rw [ham]; exact h
        have hm2 : (if (a.1 == n) = true then (a.1, v) else a).1 = m := by
          simp [ha, ham, h, Ne.symm h]
        rw [alGet_cons_pos _ _ m hm2, alGet_cons_pos a l m ham]
        simp [ha]
      · have hm2 : (if (a.1 == n) = true then (a.1, v) else a).1 ≠ m := by
          by_cases ha : a.1 = n <;> simp [ha, ham, Ne.symm h]
        rw [alGet_cons_neg _ _ m hm2, alGet_cons_neg a l m ham]
        exact ih
  · rw [if_neg hc]
    rw [alGet_append, alGet_cons_neg (n, v) [] m (Ne.symm h)]
    simp [alGet]

theorem alGet_erase_self {α : Type} (l : List (String × α)) (n : String) :
    alGet (alErase l n) n = none := by
  induction l with
  | nil => rfl
  | cons a l ih =>
    by_cases ha : a.1 = n
    · simpa [alErase, List.filter, ha] using ih
    · have hb : (a.1 != n) = true := by simp [ha]
      simp only [alErase, List.filter, hb]
      rw [alGet_cons_neg a _ n ha]
      exact ih

theorem alGet_erase_ne {α : Type} (l : List (String × α)) (n m : String)
    (h : m ≠ n) : alGet (alErase l n) m = alGet l m := by
  induction l with
  | nil => rfl
  | cons a l ih =>
    by_cases ha : a.1 = n
    · have ham : ¬ a.1 = m := by rw [ha]; exact Ne.symm h
      have hb : (a.1 != n) = false := by simp [ha]
      simp only [alErase, List.filter, hb]
      rw [alGet_cons_neg a l m ham]
      exact ih
    · have hb : (a.1 != n) = true := by simp [ha]
      simp only [alErase, List.filter, hb]
      by_cases ham : a.1 = m
      · rw [alGet_cons_pos _ _ m ham, alGet_cons_pos a l m ham]
      · rw [alGet_cons_neg _ _ m ham, alGet_cons_neg a l m ham]
        exact ih

theorem alKeys_set_of_contains {α : Type} (l : List (String × α)) (n : String)
    (v : α) (hc : alContains l n = true) : alKeys (alSet l n v) = alKeys l := by
  unfold alSet
  rw [if_pos hc]
  unfold alKeys
  rw [List.map_map]
  have he : ((fun p => p.1) ∘ fun p => if (p.1 == n) = true then (p.1, v) else p) =
      (fun (p : String × α) => p.1) := by
    funext p
    by_cases h : p.1 = n <;> simp [h]
  rw [he]

theorem alKeys_set_of_not_contains {α : Type} (l : List (String × α))
    (n : String) (v : α) (hc : alContains l n = false) :
    alKeys (alSet l n v) = alKeys l ++ [n] := by
  unfold alSet
  rw [if_neg (by simp [hc])]
  simp [alKeys]

theorem alKeys_erase_sublist {α : Type} (l : List (String × α)) (n : String) :
    (alKeys (alErase l n)).Sublist (alKeys l) := by
  unfold alKeys alErase
  exact List.Sublist.map _ (List.filter_sublist l)

theorem nodup_alKeys_set {α : Type} (l : List (String × α)) (n : String)
    (v : α) (h : (alKeys l).Nodup) : (alKeys (alSet l n v)).Nodup := by
  by_cases hc : alContains l n
  · rw [alKeys_set_of_contains l n v hc]; exact h
  · rw [alKeys_set_of_not_contains l n v (by simpa using hc)]
    refine List.Nodup.append h (List.nodup_singleton n) ?_
    intro x hx hx2
    simp only [List.mem_singleton] at hx2
    subst hx2
    rw [mem_alKeys_iff] at hx
    simp [hx] at hc

theorem nodup_alKeys_erase {α : Type} (l : List (String × α)) (n : String)
    (h : (alKeys l).Nodup) : (alKeys (alErase l n)).Nodup :=
  (alKeys_erase_sublist l n).nodup h

theorem mem_alSet {α : Type} (l : List (String × α)) (n : String) (v : α)
    (p : String × α) (h : p ∈ alSet l n v) : p.2 = v ∨ p ∈ l := by
  unfold alSet at h
  by_cases hc : alContains l n
  · rw [if_pos hc] at h
    rcases List.mem_map.mp h with ⟨q, hq, hqe⟩
    by_cases hb : q.1 = n
    · left; rw [← hqe]; simp [hb]
    · right; rw [← hqe]; simpa [hb] using hq
  · rw [if_neg hc] at h
    rcases List.mem_append.mp h with h1 | h1
    · right; exact h1
    · left; simp only [List.mem_singleton] at h1; rw [h1]

theorem mem_alErase {α : Type} (l : List (String × α)) (n : String)
    (p : String × α) (h : p ∈ alErase l n) : p ∈ l :=
  List.mem_of_mem_filter h

theorem alGet_eq_of_mem_nodup {α : Type} (l : List (String × α)) (n : String)
    (v : α) (hn : (alKeys l).Nodup) (hm : (n, v) ∈ l) : alGet l n = some v := by
  induction l with
  | nil => simp at hm
  | cons a l ih =>
    rcases List.mem_cons.mp hm with h1 | h1
    · rw [← h1]
      exact alGet_cons_pos (n, v) l n rfl
    · have ha : ¬ a.1 = n := by
        intro hh
        have : n ∈ alKeys l := by
          rw [mem_alKeys_iff]
          unfold alContains
          exact List.any_eq_true.mpr ⟨(n, v), h1, by simp⟩
        simp only [alKeys, List.map_cons, List.nodup_cons] at hn
        exact hn.1 (hh ▸ this)
      rw [alGet_cons_neg a l n ha]
      exact ih (by simpa [alKeys, List.nodup_cons] using
        (List.nodup_cons.mp (by simpa [alKeys] using hn)).2) h1


/-! ## Lemmas: findFirstIdx, swapRemove and list indices -/

theorem findFirstIdx_none_iff {α : Type} (pr : α → Bool) (l : List α) :
    findFirstIdx pr l = none ↔ ∀ e ∈ l, pr e = false := by
  induction l with
  | nil => simp [findFirstIdx]
  | cons a l ih =>
    by_cases h : pr a = true
    · simp [findFirstIdx, h]
    · simp only [findFirstIdx, h, Bool.false_eq_true, if_false, List.mem_cons,
        Option.map_eq_none']
      constructor
      · intro hm e he
        rcases he with he | he
        · rw [he]; simpa using h
        · exact (ih.mp hm) e he
      · intro hm
        exact ih.mpr (fun e he => hm e (Or.inr he))

theorem findFirstIdx_some_getElem {α : Type} (pr : α → Bool) (l : List α)
    (j : Nat) (h : findFirstIdx pr l = some j) :
    ∃ e, l[j]? = some e ∧ pr e = true := by
  induction l generalizing j with
  | nil => simp [findFirstIdx] at h
  | cons a l ih =>
    by_cases ha : pr a = true
    · simp only [findFirstIdx, ha, if_true, Option.some_inj] at h
      subst h
      exact ⟨a, by simp, ha⟩
    · have hu : findFirstIdx pr (a :: l) =
          (findFirstIdx pr l).map (fun k => k + 1) := by
        simp [findFirstIdx, ha]
      rw [hu, Option.map_eq_some'] at h
      rcases h with ⟨k, hk, hkj⟩
      subst hkj
      rcases ih k hk with ⟨e, he, hpe⟩
      exact ⟨e, by simpa using he, hpe⟩

theorem findFirstIdx_min {α : Type} (pr : α → Bool) (l : List α) (j : Nat)
    (h : findFirstIdx pr l = some j) :
    ∀ k e, k < j → l[k]? = some e → pr e = false := by
  induction l generalizing j with
  | nil => simp [findFirstIdx] at h
  | cons a l ih =>
    by_cases ha : pr a = true
    · simp only [findFirstIdx, ha, if_true, Option.some_inj] at h
      subst h
      intro k e hk
      exact absurd hk (Nat.not_lt_zero k)
    · have hu : findFirstIdx pr (a :: l) =
          (findFirstIdx pr l).map (fun k => k + 1) := by
        simp [findFirstIdx, ha]
      rw [hu, Option.map_eq_some'] at h
      rcases h with ⟨j0, hj0, hjj⟩
      subst hjj
      intro k e hk he
      cases k with
      | zero =>
        simp only [List.getElem?_cons_zero, Option.some_inj] at he
        rw [← he]; simpa using ha
      | succ k0 =>
        simp only [List.getElem?_cons_succ] at he
        exact ih j0 hj0 k0 e (Nat.lt_of_succ_lt_succ hk) he

theorem findFirstIdx_eq_some_of {α : Type} (pr : α → Bool) (l : List α)
    (j : Nat) (e : α) (hj : l[j]? = some e) (he : pr e = true)
    (hmin : ∀ k ek, k < j → l[k]? = some ek → pr ek = false) :
    findFirstIdx pr l = some j := by
  induction l generalizing j with
  | nil => simp at hj
  | cons a l ih =>
    cases j with
    | zero =>
      simp only [List.getElem?_cons_zero, Option.some_inj] at hj
      subst hj
      simp [findFirstIdx, he]
    | succ j0 =>
      have ha : pr a = false := hmin 0 a (Nat.succ_pos j0) (by simp)
      simp only [List.getElem?_cons_succ] at hj
      simp only [findFirstIdx, ha, Bool.false_eq_true, if_false]
      rw [ih j0 hj (fun k ek hk hek =>
        hmin (k + 1) ek (Nat.succ_lt_succ hk) (by simpa using hek))]
      rfl

theorem findFirstIdx_append_none {α : Type} (pr : α → Bool) (l1 l2 : List α)
    (h : findFirstIdx pr l1 = none) :
    findFirstIdx pr (l1 ++ l2) =
      (findFirstIdx pr l2).map (fun k => k + l1.length) := by
  induction l1 with
  | nil => simp
  | cons a l ih =>
    have ha : pr a = false := by
      rw [findFirstIdx_none_iff] at h
      exact h a (List.mem_cons_self a l)
    have htail : findFirstIdx pr l = none := by
      rw [findFirstIdx_none_iff] at h ⊢
      exact fun e he => h e (List.mem_cons_of_mem a he)
    have hu : findFirstIdx pr ((a :: l) ++ l2) =
        (findFirstIdx pr (l ++ l2)).map (fun k => k + 1) := by
      simp [findFirstIdx, ha]
    rw [hu, ih htail]
    cases findFirstIdx pr l2 with
    | none => simp
    | some k =>
      simp only [Option.map_some', List.length_cons, Option.some_inj]
      omega

theorem mem_of_getElem?_eq_some {α : Type} (l : List α) (j : Nat) (e : α)
    (h : l[j]? = some e) : e ∈ l := by
  induction l generalizing j with
  | nil => simp at h
  | cons a l ih =>
    cases j with
    | zero =>
      simp only [List.getElem?_cons_zero, Option.some_inj] at h
      rw [← h]; exact List.mem_cons_self a l
    | succ j0 =>
      simp only [List.getElem?_cons_succ] at h
      exact List.mem_cons_of_mem a (ih j0 h)

theorem set_self_of_getElem? {α : Type} (l : List α) (j : Nat) (e : α)
    (h : l[j]? = some e) : l.set j e = l := by
  induction l generalizing j with
  | nil => rfl
  | cons a l ih =>
    cases j with
    | zero =>
      simp only [List.getElem?_cons_zero, Option.some_inj] at h
      rw [← h]; rfl
    | succ j0 =>
      simp only [List.getElem?_cons_succ] at h
      simp [List.set, ih j0 h]

theorem set_eq_take_cons_drop {α : Type} (l : List α) (j : Nat) (a : α)
    (h : j < l.length) : l.set j a = l.take j ++ a :: l.drop (j + 1) := by
  induction l generalizing j with
  | nil => simp at h
  | cons b l ih =>
    cases j with
    | zero => simp
    | succ j0 =>
      simp only [List.length_cons, Nat.succ_lt_succ_iff] at h
      simp [List.set, List.take, List.drop, ih j0 h]

theorem eraseIdx_eq_take_drop {α : Type} (l : List α) (j : Nat) :
    l.eraseIdx j = l.take j ++ l.drop (j + 1) :=
  List.eraseIdx_eq_take_drop_succ l j

theorem getElem?_take_drop {α : Type} (l : List α) (j : Nat) (e : α)
    (h : l[j]? = some e) : l = l.take j ++ e :: l.drop (j + 1) := by
  induction l generalizing j with
  | nil => simp at h
  | cons a l ih =>
    cases j with
    | zero =>
      simp only [List.getElem?_cons_zero, Option.some_inj] at h
      simp [h]
    | succ j0 =>
      simp only [List.getElem?_cons_succ] at h
      simpa [List.take, List.drop] using congrArg (List.cons a) (ih j0 h)

theorem perm_eraseIdx_concat {α : Type} (l : List α) (j : Nat) (e : α)
    (h : l[j]? = some e) : (l.eraseIdx j ++ [e]).Perm l := by
  rw [eraseIdx_eq_take_drop, List.append_assoc]
  have h3 := List.Perm.append_left (l.take j)
    (List.perm_append_singleton e (l.drop (j + 1)))
  conv_rhs => rw [getElem?_take_drop l j e h]
  exact h3

theorem swapRemove_perm_eraseIdx {A : Type} (l : List A) (j : Nat)
    (h : j < l.length) : (swapRemove l j).Perm (l.eraseIdx j) := by
  have hne : l ≠ [] := by
    intro he; rw [he] at h; simp at h
  have hz : l.getLast? = some (l.getLast hne) := List.getLast?_eq_getLast l hne
  unfold swapRemove
  rw [hz]
  show ((l.set j (l.getLast hne)).dropLast).Perm (l.eraseIdx j)
  by_cases hj : j + 1 = l.length
  · have hget : l[j]? = some (l.getLast hne) := by
      rw [List.getLast?_eq_getElem?] at hz
      have hlen : l.length - 1 = j := by omega
      rw [hlen] at hz
      exact hz
    rw [set_self_of_getElem? l j _ hget]
    rw [eraseIdx_eq_take_drop, List.dropLast_eq_take]
    have hdr : l.drop (j + 1) = [] := by
      apply List.drop_eq_nil_of_le; omega
    rw [hdr, List.append_nil]
    have hlen : l.length - 1 = j := by omega
    rw [hlen]
  · have hj2 : j + 1 < l.length := by omega
    rw [set_eq_take_cons_drop l j _ h]
    have hd : l.drop (j + 1) ≠ [] := by
      intro hdd
      have hlen := congrArg List.length hdd
      simp only [List.length_drop, List.length_nil] at hlen
      omega
    rw [List.dropLast_append_of_ne_nil _ (by simp : l.getLast hne :: l.drop (j + 1) ≠ [])]
    rw [List.dropLast_cons_of_ne_nil hd]
    rw [eraseIdx_eq_take_drop]
    apply List.Perm.append_left
    have hgl : l.getLast hne = (l.drop (j + 1)).getLast hd := by
      have h1 : (l.take (j + 1) ++ l.drop (j + 1)).getLast? = (l.drop (j + 1)).getLast? := by
        exact List.getLast?_append_of_ne_nil _ hd
      rw [List.take_append_drop] at h1
      rw [hz, List.getLast?_eq_getLast _ hd] at h1
      exact Option.some_inj.mp h1
    rw [hgl]
    have h2 := List.perm_append_singleton ((l.drop (j + 1)).getLast hd)
      (l.drop (j + 1)).dropLast
    have h3 : (l.drop (j + 1)).dropLast ++ [(l.drop (j + 1)).getLast hd] =
        l.drop (j + 1) := List.dropLast_append_getLast hd
    conv_rhs => rw [← h3]
    exact h2.symm

theorem swapRemove_subset {A : Type} (l : List A) (j : Nat) (h : j < l.length) :
    ∀ x ∈ swapRemove l j, x ∈ l := by
  intro x hx
  have h1 := (swapRemove_perm_eraseIdx l j h).mem_iff.mp hx
  exact (List.eraseIdx_sublist l j).subset h1

/-! ## Claim C1 -/

/-- C1: the claim says `UpdateCapacity` to a smaller total adds
`max(0, d - floor(TotalQuantity))` to the backlog, discards
`min(d, floor(TotalQuantity))` whole units and lowers `total_capacity` by
`d`; in particular a pool of capacity 2 with both slots acquired survives
`UpdateCapacity(0)` with backlog 2.  The code instead aborts: with the pool
exhausted, `DecreaseCapacity` calls `Acquire(0)`, which takes the fractional
branch and fails `RAY_CHECK(whole_ids_.size() > 0)`.  This theorem evaluates
the code at the claimed scenario: acquiring both slots succeeds, and the
subsequent `UpdateCapacity(0)` is fatal (`none`). -/
theorem c1_updateCapacity_on_exhausted_pool_is_fatal :
    (ResourceIds.ofCapacity 2).Acquire (FixedPoint.ofInt 2) =
      some (ResourceIds.ofWholeIds [1, 0],
        { whole_ids := [], fractional_ids := [], total_capacity := ⟨20000⟩,
          decrement_backlog := 0 }) ∧
    ResourceIds.UpdateCapacity
      { whole_ids := [], fractional_ids := [], total_capacity := ⟨20000⟩,
        decrement_backlog := 0 } 0 = none := by
  decide

/-! ## Claim C2: counterexample -/

/-- C2 counterexample: the claim says `UpdateResourceCapacity(name, 0)`
removes the `total` and `available` entries (AddOrUpdate "removing if 0").
On `total = available = {CPU: 2}`, updating CPU to capacity 0 leaves both
entries present with the old value 2: `AddOrUpdateResource` is a no-op for a
non-positive capacity and removes nothing. -/
theorem c2_counterexample :
    ((SchedulingResources.ofTotal
        ⟨[("CPU", FixedPoint.ofInt 2)]⟩).UpdateResourceCapacity "CPU"
        0).resources_total.GetResource "CPU" = FixedPoint.ofInt 2 ∧
    ((SchedulingResources.ofTotal
        ⟨[("CPU", FixedPoint.ofInt 2)]⟩).UpdateResourceCapacity "CPU"
        0).resources_available.GetResource "CPU" = FixedPoint.ofInt 2 ∧
    "CPU" ∈ ((SchedulingResources.ofTotal
        ⟨[("CPU", FixedPoint.ofInt 2)]⟩).UpdateResourceCapacity "CPU"
        0).resources_total.keys := by
  decide

/-! ## Claim C3: counterexample -/

/-- C3 counterexample: the claim quantifies over every `ResourceIds` pool.
For `backlogPool` (one free whole id, `decrement_backlog = 1`, a state
satisfying all the representation invariants of spec section 3),
`Contains(1)` holds, but `Acquire(1)` followed by `Release` of the grant
pays the backlog instead of restoring the id: the total quantity drops from
1 to 0, so the round trip is not observation-preserving. -/
theorem c3_counterexample :
    backlogPool.WfIds ∧
    backlogPool.Contains (FixedPoint.ofInt 1) = some true ∧
    (backlogPool.Acquire (FixedPoint.ofInt 1)).bind
        (fun r => r.2.Release r.1) =
      some { whole_ids := [], fractional_ids := [], total_capacity := ⟨10000⟩,
             decrement_backlog := 0 } ∧
    ¬ (ResourceIds.TotalQuantity
         { whole_ids := [], fractional_ids := [], total_capacity := ⟨10000⟩,
           decrement_backlog := 0 } = backlogPool.TotalQuantity) := by
  decide

/-! ## Claim C4: counterexample -/

/-- C4 counterexample: the claim says `AddOrUpdateResource` never leaves a
key mapped to an empty pool.  `AddOrUpdateResource("CPU", 0)` on an empty
`ResourceIdSet` inserts the key `CPU` mapped to `ResourceIds(0)`, whose two
sequences are both empty, violating the presence-iff-non-empty invariant. -/
theorem c4_counterexample :
    ResourceIdSet.AddOrUpdateResource ⟨[]⟩ "CPU" 0 =
      some ⟨[("CPU", ResourceIds.mk [] [] ⟨0⟩ 0)]⟩ ∧
    ResourceIds.TotalQuantityIsZero (ResourceIds.mk [] [] ⟨0⟩ 0) = true := by
  decide

/-! ## Claim C5: counterexample -/

/-- C5 counterexample: the claim says that in every reachable pool every id
appears in `whole_ids` at most once.  Starting from `ResourceIds(1)`, the
public `UpdateCapacity(3)` appends two sentinel slots, so the id `-1`
appears twice in `whole_ids`. -/
theorem c5_counterexample :
    (ResourceIds.ofCapacity 1).UpdateCapacity 3 =
      some { whole_ids := [0, -1, -1], fractional_ids := [],
             total_capacity := ⟨30000⟩, decrement_backlog := 0 } ∧
    ([0, -1, -1] : List Int).count (-1) = 2 := by
  decide

/-! ## Helpers for the ResourceIds round trip -/

theorem option_bind_pure {α : Type} (o : Option α) : (o >>= pure) = o := by
  cases o <;> rfl

theorem getElem?_set_self {α : Type} (l : List α) (j : Nat) (a : α)
    (h : j < l.length) : (l.set j a)[j]? = some a := by
  induction l generalizing j with
  | nil => simp at h
  | cons b l ih =>
    cases j with
    | zero => simp [List.set]
    | succ j0 =>
      simp only [List.length_cons, Nat.succ_lt_succ_iff] at h
      simpa [List.set] using ih j0 h

theorem map_fst_set_same {β : Type} (l : List (Int × β)) (j : Nat)
    (e : Int × β) (x : β) (hj : l[j]? = some e) :
    (l.set j (e.1, x)).map (fun p => p.1) = l.map (fun p => p.1) := by
  induction l generalizing j with
  | nil => simp at hj
  | cons b l ih =>
    cases j with
    | zero =>
      simp only [List.getElem?_cons_zero, Option.some_inj] at hj
      simp [List.set, hj]
    | succ j0 =>
      simp only [List.getElem?_cons_succ] at hj
      simp [List.set, ih j0 hj]

theorem map_fst_eraseIdx {β : Type} (l : List (Int × β)) (j : Nat) :
    (l.eraseIdx j).map (fun p => p.1) = (l.map (fun p => p.1)).eraseIdx j := by
  rw [eraseIdx_eq_take_drop, eraseIdx_eq_take_drop, List.map_append,
    List.map_take, List.map_drop]

theorem findFirstIdx_key_nodup {β : Type} (l : List (Int × β)) (j : Nat)
    (e : Int × β) (hnd : (l.map (fun p => p.1)).Nodup) (hj : l[j]? = some e) :
    findFirstIdx (fun p => p.1 == e.1) l = some j := by
  induction l generalizing j with
  | nil => simp at hj
  | cons b l ih =>
    cases j with
    | zero =>
      simp only [List.getElem?_cons_zero, Option.some_inj] at hj
      subst hj
      simp [findFirstIdx]
    | succ j0 =>
      simp only [List.getElem?_cons_succ] at hj
      have hmem : e ∈ l := mem_of_getElem?_eq_some l j0 e hj
      have hb : ¬ (b.1 = e.1) := by
        intro hh
        simp only [List.map_cons, List.nodup_cons] at hnd
        exact hnd.1 (hh ▸ List.mem_map.mpr ⟨e, hmem, rfl⟩)
      have hbb : (b.1 == e.1) = false := by simpa using hb
      simp only [findFirstIdx, hbb, Bool.false_eq_true, if_false]
      rw [ih j0 (by simpa [List.nodup_cons] using
        (List.nodup_cons.mp (by simpa using hnd)).2) hj]
      rfl

theorem not_mem_map_fst_eraseIdx {β : Type} (l : List (Int × β)) (j : Nat)
    (e : Int × β) (hnd : (l.map (fun p => p.1)).Nodup) (hj : l[j]? = some e) :
    e.1 ∉ (l.eraseIdx j).map (fun p => p.1) := by
  rw [map_fst_eraseIdx]
  have hjm : (l.map (fun p => p.1))[j]? = some e.1 := by
    rw [List.getElem?_map, hj]
    rfl
  have hsplit := getElem?_take_drop (l.map (fun p => p.1)) j e.1 hjm
  rw [eraseIdx_eq_take_drop]
  intro hmem
  rw [hsplit] at hnd
  rcases List.nodup_append.mp hnd with ⟨_, hnd2, hdisj⟩
  rcases List.mem_append.mp hmem with h1 | h1
  · exact hdisj h1 (List.mem_cons_self _ _)
  · exact (List.nodup_cons.mp hnd2).1 h1

theorem releaseWhole_nil (s : ResourceIds) :
    (s.releaseWhole []).whole_ids = s.whole_ids ∧
    (s.releaseWhole []).fractional_ids = s.fractional_ids := by
  unfold ResourceIds.releaseWhole
  split <;> simp

theorem releaseWhole_nil_backlog_zero (s : ResourceIds)
    (h : s.decrement_backlog = 0) :
    s.releaseWhole [] = s := by
  unfold ResourceIds.releaseWhole
  rw [if_neg (by rw [h]; simp)]
  have h2 : s.decrement_backlog - (([] : List Int).length : Int) =
      s.decrement_backlog := by simp
  rw [h2]

theorem release_single_frac (s : ResourceIds) (p : Int × FixedPoint) :
    s.Release (ResourceIds.ofFracIds [p]) =
      ResourceIds.releaseFracPair (s.releaseWhole []) p := by
  unfold ResourceIds.Release
  show [p].foldlM ResourceIds.releaseFracPair (s.releaseWhole []) = _
  rw [List.foldlM_cons]
  cases hstep : ResourceIds.releaseFracPair (s.releaseWhole []) p with
  | none => rfl
  | some t =>
    rw [option_some_bind_eq]
    rfl

theorem acquire_frac_debit (s : ResourceIds) (q : FixedPoint) (j : Nat)
    (e : Int × FixedPoint) (hnotle : ¬ (FixedPoint.ofInt 1 ≤ q))
    (hj : s.fractional_ids[j]? = some e) (hq : q ≤ e.2)
    (hmin : ∀ k ek, k < j → s.fractional_ids[k]? = some ek → ¬ q ≤ ek.2) :
    s.Acquire q = some (ResourceIds.ofFracIds [(e.1, q)],
      { s with fractional_ids :=
          if e.2 - q = (⟨0⟩ : FixedPoint) then swapRemove s.fractional_ids j
          else s.fractional_ids.set j (e.1, e.2 - q) }) := by
  have hfi : findFirstIdx (fun p => decide (q ≤ p.2)) s.fractional_ids =
      some j := by
    refine findFirstIdx_eq_some_of _ _ j e hj (by simpa using hq) ?_
    intro k ek hk hek
    simpa using hmin k ek hk hek
  simp only [ResourceIds.Acquire, if_neg hnotle, hfi, hj]

theorem acquire_frac_split (s : ResourceIds) (q : FixedPoint) (l0 : List Int)
    (id : Int) (hnotle : ¬ (FixedPoint.ofInt 1 ≤ q))
    (hnone : ∀ e ∈ s.fractional_ids, ¬ q ≤ e.2)
    (hw : s.whole_ids = l0 ++ [id]) :
    s.Acquire q = some (ResourceIds.ofFracIds [(id, q)],
      { s with whole_ids := l0,
               fractional_ids :=
                 s.fractional_ids ++ [(id, FixedPoint.ofInt 1 - q)] }) := by
  have hfi : findFirstIdx (fun p => decide (q ≤ p.2)) s.fractional_ids =
      none := by
    rw [findFirstIdx_none_iff]
    intro ee he
    simpa using hnone ee he
  have hlast : s.whole_ids.getLast? = some id := by
    rw [hw]; exact List.getLast?_concat l0
  have hdrop : s.whole_ids.dropLast = l0 := by
    rw [hw]; exact List.dropLast_concat
  simp only [ResourceIds.Acquire, if_neg hnotle, hfi, hlast, hdrop]

theorem ResourceIds.obsEq_of_perms (a b : ResourceIds)
    (hw : a.whole_ids.Perm b.whole_ids)
    (hf : a.fractional_ids.Perm b.fractional_ids) : a.ObsEq b := by
  refine ⟨?_, hw, hf⟩
  unfold ResourceIds.TotalQuantity
  rw [hw.length_eq, (hf.map (fun p => p.2.i)).sum_eq]


/-! ## Claim C7 -/

/-- C7: for a fractional quantity `0 < q < 1`, `Acquire` debits the first
fractional entry whose residual is at least `q` (tail-swap removing it when
the residual becomes exactly 0), and when no such entry exists it pops the
last whole id and splits it, granting `(id, q)` and keeping `(id, 1 - q)`;
concretely, from `ResourceIds(3)`, `Acquire(0.4)` grants `(2, 0.4)` leaving
`whole = [0,1]`, `fractional = [(2, 0.6)]`, then `Acquire(0.5)` grants
`(2, 0.5)` leaving `fractional = [(2, 0.1)]`, then `Acquire(1)` grants id 1,
and the remaining total quantity is 1.1. -/
theorem c7_fractional_first_fit_and_split :
    (∀ (s : ResourceIds) (q : FixedPoint) (j : Nat) (e : Int × FixedPoint),
       (⟨0⟩ : FixedPoint) < q → q < FixedPoint.ofInt 1 →
       s.fractional_ids[j]? = some e → q ≤ e.2 →
       (∀ k ek, k < j → s.fractional_ids[k]? = some ek → ¬ q ≤ ek.2) →
       s.Acquire q = some (ResourceIds.ofFracIds [(e.1, q)],
         { s with fractional_ids :=
             if e.2 - q = (⟨0⟩ : FixedPoint) then swapRemove s.fractional_ids j
             else s.fractional_ids.set j (e.1, e.2 - q) })) ∧
    (∀ (s : ResourceIds) (q : FixedPoint) (l0 : List Int) (id : Int),
       (⟨0⟩ : FixedPoint) < q → q < FixedPoint.ofInt 1 →
       (∀ e ∈ s.fractional_ids, ¬ q ≤ e.2) →
       s.whole_ids = l0 ++ [id] →
       s.Acquire q = some (ResourceIds.ofFracIds [(id, q)],
         { s with whole_ids := l0,
                  fractional_ids :=
                    s.fractional_ids ++ [(id, FixedPoint.ofInt 1 - q)] })) ∧
    ((ResourceIds.ofCapacity 3).Acquire ⟨4000⟩ =
       some (ResourceIds.ofFracIds [(2, ⟨4000⟩)],
         ResourceIds.mk [0, 1] [(2, ⟨6000⟩)] ⟨30000⟩ 0) ∧
     (ResourceIds.mk [0, 1] [(2, ⟨6000⟩)] ⟨30000⟩ 0).Acquire ⟨5000⟩ =
       some (ResourceIds.ofFracIds [(2, ⟨5000⟩)],
         ResourceIds.mk [0, 1] [(2, ⟨1000⟩)] ⟨30000⟩ 0) ∧
     (ResourceIds.mk [0, 1] [(2, ⟨1000⟩)] ⟨30000⟩ 0).Acquire
         (FixedPoint.ofInt 1) =
       some (ResourceIds.ofWholeIds [1],
         ResourceIds.mk [0] [(2, ⟨1000⟩)] ⟨30000⟩ 0) ∧
     (ResourceIds.mk [0] [(2, ⟨1000⟩)] ⟨30000⟩ 0).TotalQuantity = ⟨11000⟩) := by
  refine ⟨?_, ?_, by decide⟩
  · intro s q j e _ hlt hj hq hmin
    exact acquire_frac_debit s q j e
      (fun hc => absurd (Int.lt_of_le_of_lt hc hlt) (Int.lt_irrefl _)) hj hq
      hmin
  · intro s q l0 id _ hlt hnone hw
    exact acquire_frac_split s q l0 id
      (fun hc => absurd (Int.lt_of_le_of_lt hc hlt) (Int.lt_irrefl _)) hnone
      hw

/-- Witness for C7: the split branch applied to `ResourceIds(3)` with
`q = 0.4`. -/
theorem c7_witness :
    (ResourceIds.ofCapacity 3).Acquire ⟨4000⟩ =
      some (ResourceIds.ofFracIds [(2, ⟨4000⟩)],
        { (ResourceIds.ofCapacity 3) with
            whole_ids := [0, 1],
            fractional_ids :=
              (ResourceIds.ofCapacity 3).fractional_ids ++
                [(2, FixedPoint.ofInt 1 - ⟨4000⟩)] }) :=
  c7_fractional_first_fit_and_split.2.1 (ResourceIds.ofCapacity 3) ⟨4000⟩
    [0, 1] 2 (by decide) (by decide) (by decide) (by decide)

/-! ## ResourceSet-level consequences of the map lemmas -/

theorem ResourceSet.getResource_set_self (s : ResourceSet) (n : String)
    (v : FixedPoint) : (s.setResource n v).GetResource n = v := by
  unfold ResourceSet.GetResource ResourceSet.setResource
  rw [alGet_set_self]
  rfl

theorem ResourceSet.getResource_set_ne (s : ResourceSet) (n : String)
    (v : FixedPoint) (m : String) (h : m ≠ n) :
    (s.setResource n v).GetResource m = s.GetResource m := by
  unfold ResourceSet.GetResource ResourceSet.setResource
  rw [alGet_set_ne _ _ _ _ h]

theorem ResourceSet.getResource_erase_self (s : ResourceSet) (n : String) :
    (s.eraseResource n).GetResource n = ⟨0⟩ := by
  unfold ResourceSet.GetResource ResourceSet.eraseResource
  rw [alGet_erase_self]
  rfl

theorem ResourceSet.getResource_erase_ne (s : ResourceSet) (n : String)
    (m : String) (h : m ≠ n) :
    (s.eraseResource n).GetResource m = s.GetResource m := by
  unfold ResourceSet.GetResource ResourceSet.eraseResource
  rw [alGet_erase_ne _ _ _ h]

theorem ResourceSet.getResource_addOrUpdate_self (s : ResourceSet) (n : String)
    (v : FixedPoint) :
    (s.AddOrUpdateResource n v).GetResource n =
      if (⟨0⟩ : FixedPoint) < v then v else s.GetResource n := by
  unfold ResourceSet.AddOrUpdateResource
  by_cases h : (⟨0⟩ : FixedPoint) < v
  · rw [if_pos h, if_pos h, ResourceSet.getResource_set_self]
  · rw [if_neg h, if_neg h]

theorem ResourceSet.getResource_addOrUpdate_ne (s : ResourceSet) (n : String)
    (v : FixedPoint) (m : String) (h : m ≠ n) :
    (s.AddOrUpdateResource n v).GetResource m = s.GetResource m := by
  unfold ResourceSet.AddOrUpdateResource
  by_cases hv : (⟨0⟩ : FixedPoint) < v
  · rw [if_pos hv, ResourceSet.getResource_set_ne _ _ _ _ h]
  · rw [if_neg hv]

/-! ## Claim C2: amended -/

/-- C2 amended: when `total` holds `name` with capacity `c > 0`,
`UpdateResourceCapacity(name, new_cap)` computes the clamped available
quantity `max(0, available + (new_cap - c))` and writes both entries through
`AddOrUpdateResource`, which replaces an entry only when the new value is
positive and otherwise leaves the old entry in place (nothing is removed
when the new value is 0); all other keys and `load` are untouched. -/
theorem c2_updateResourceCapacity_addOrUpdate (S : SchedulingResources)
    (name : String) (cap : Int)
    (h : (⟨0⟩ : FixedPoint) < S.resources_total.GetResource name) :
    ((S.UpdateResourceCapacity name cap).resources_total.GetResource name =
       if (⟨0⟩ : FixedPoint) < FixedPoint.ofInt cap then FixedPoint.ofInt cap
       else S.resources_total.GetResource name) ∧
    ((S.UpdateResourceCapacity name cap).resources_available.GetResource name =
       if (⟨0⟩ : FixedPoint) <
           (⟨max 0 ((S.resources_available.GetResource name).i +
              ((FixedPoint.ofInt cap).i -
               (S.resources_total.GetResource name).i))⟩ : FixedPoint) then
         (⟨max 0 ((S.resources_available.GetResource name).i +
            ((FixedPoint.ofInt cap).i -
             (S.resources_total.GetResource name).i))⟩ : FixedPoint)
       else S.resources_available.GetResource name) ∧
    (∀ m, m ≠ name →
       (S.UpdateResourceCapacity name cap).resources_total.GetResource m =
         S.resources_total.GetResource m ∧
       (S.UpdateResourceCapacity name cap).resources_available.GetResource m =
         S.resources_available.GetResource m) ∧
    (S.UpdateResourceCapacity name cap).resources_load = S.resources_load := by
  have hna : (if S.resources_available.GetResource name +
        (FixedPoint.ofInt cap - S.resources_total.GetResource name) <
        (⟨0⟩ : FixedPoint) then (⟨0⟩ : FixedPoint)
      else S.resources_available.GetResource name +
        (FixedPoint.ofInt cap - S.resources_total.GetResource name)) =
      (⟨max 0 ((S.resources_available.GetResource name).i +
          ((FixedPoint.ofInt cap).i -
           (S.resources_total.GetResource name).i))⟩ : FixedPoint) := by
    by_cases hc : S.resources_available.GetResource name +
        (FixedPoint.ofInt cap - S.resources_total.GetResource name) <
        (⟨0⟩ : FixedPoint)
    · rw [if_pos hc]
      have hci : (S.resources_available.GetResource name).i +
          ((FixedPoint.ofInt cap).i -
           (S.resources_total.GetResource name).i) < 0 := hc
      have hm : max 0 ((S.resources_available.GetResource name).i +
          ((FixedPoint.ofInt cap).i -
           (S.resources_total.GetResource name).i)) = 0 := by omega
      rw [hm]
    · rw [if_neg hc]
      have hci : ¬ ((S.resources_available.GetResource name).i +
          ((FixedPoint.ofInt cap).i -
           (S.resources_total.GetResource name).i) < 0) := hc
      have hm : max 0 ((S.resources_available.GetResource name).i +
          ((FixedPoint.ofInt cap).i -
           (S.resources_total.GetResource name).i)) =
          (S.resources_available.GetResource name).i +
          ((FixedPoint.ofInt cap).i -
           (S.resources_total.GetResource name).i) := by omega
      rw [hm]
      rfl
  unfold SchedulingResources.UpdateResourceCapacity
  rw [if_pos h]
  simp only
  rw [hna]
  refine ⟨?_, ?_, ?_, trivial⟩
  · exact ResourceSet.getResource_addOrUpdate_self _ _ _
  · exact ResourceSet.getResource_addOrUpdate_self _ _ _
  · intro m hm
    exact ⟨ResourceSet.getResource_addOrUpdate_ne _ _ _ _ hm,
           ResourceSet.getResource_addOrUpdate_ne _ _ _ _ hm⟩

/-- Witness for the amended C2: capacity raised from 2 to 3 on
`total = available = {CPU: 2}`. -/
theorem c2_witness :
    ((⟨0⟩ : FixedPoint) <
      (SchedulingResources.ofTotal
        ⟨[("CPU", FixedPoint.ofInt 2)]⟩).resources_total.GetResource "CPU") ∧
    (((SchedulingResources.ofTotal
        ⟨[("CPU", FixedPoint.ofInt 2)]⟩).UpdateResourceCapacity "CPU"
        3).resources_total.GetResource "CPU" =
       if (⟨0⟩ : FixedPoint) < FixedPoint.ofInt 3 then FixedPoint.ofInt 3
       else (SchedulingResources.ofTotal
        ⟨[("CPU", FixedPoint.ofInt 2)]⟩).resources_total.GetResource "CPU") :=
  ⟨by decide,
   (c2_updateResourceCapacity_addOrUpdate
     (SchedulingResources.ofTotal ⟨[("CPU", FixedPoint.ofInt 2)]⟩) "CPU" 3
     (by decide)).1⟩

/-! ## Key membership corollaries -/

theorem ResourceSet.containsKey_eq_isSome (s : ResourceSet) (n : String) :
    s.containsKey n = (alGet s.entries n).isSome :=
  alContains_eq_isSome _ _

theorem ResourceSet.mem_keys_iff (s : ResourceSet) (n : String) :
    n ∈ s.keys ↔ s.containsKey n = true :=
  mem_alKeys_iff _ _

theorem ResourceSet.getResource_of_not_contains (s : ResourceSet) (n : String)
    (h : s.containsKey n = false) : s.GetResource n = ⟨0⟩ := by
  unfold ResourceSet.GetResource
  rw [ResourceSet.containsKey_eq_isSome] at h
  cases hg : alGet s.entries n with
  | none => rfl
  | some v => rw [hg] at h; simp at h

theorem ResourceSet.mem_keys_set_self (s : ResourceSet) (n : String)
    (v : FixedPoint) : n ∈ (s.setResource n v).keys := by
  rw [ResourceSet.mem_keys_iff, ResourceSet.containsKey_eq_isSome]
  unfold ResourceSet.setResource
  rw [alGet_set_self]
  rfl

theorem ResourceSet.mem_keys_set_ne (s : ResourceSet) (n : String)
    (v : FixedPoint) (m : String) (h : m ≠ n) :
    m ∈ (s.setResource n v).keys ↔ m ∈ s.keys := by
  rw [ResourceSet.mem_keys_iff, ResourceSet.containsKey_eq_isSome,
    ResourceSet.mem_keys_iff, ResourceSet.containsKey_eq_isSome]
  unfold ResourceSet.setResource
  rw [alGet_set_ne _ _ _ _ h]

theorem ResourceSet.not_mem_keys_erase_self (s : ResourceSet) (n : String) :
    n ∉ (s.eraseResource n).keys := by
  rw [ResourceSet.mem_keys_iff, ResourceSet.containsKey_eq_isSome]
  unfold ResourceSet.eraseResource
  rw [alGet_erase_self]
  simp

theorem ResourceSet.mem_keys_erase_ne (s : ResourceSet) (n : String)
    (m : String) (h : m ≠ n) :
    m ∈ (s.eraseResource n).keys ↔ m ∈ s.keys := by
  rw [ResourceSet.mem_keys_iff, ResourceSet.containsKey_eq_isSome,
    ResourceSet.mem_keys_iff, ResourceSet.containsKey_eq_isSome]
  unfold ResourceSet.eraseResource
  rw [alGet_erase_ne _ _ _ h]

/-! ## Claim C8: clamped subtract -/

theorem subtractOne_self (s : ResourceSet) (p : String × FixedPoint) :
    ((s.subtractOne p).GetResource p.1 =
      if s.containsKey p.1 = true ∧
          (⟨0⟩ : FixedPoint) < s.GetResource p.1 - p.2 then
        s.GetResource p.1 - p.2
      else ⟨0⟩) ∧
    (p.1 ∈ (s.subtractOne p).keys ↔
      s.containsKey p.1 = true ∧
        (⟨0⟩ : FixedPoint) < s.GetResource p.1 - p.2) := by
  unfold ResourceSet.subtractOne
  by_cases hc : s.containsKey p.1 = true
  · rw [if_pos hc]
    by_cases hpos : (⟨0⟩ : FixedPoint) < s.GetResource p.1 - p.2
    · have hno : ¬ ((s.setResource p.1 (s.GetResource p.1 - p.2)).GetResource
          p.1 ≤ (⟨0⟩ : FixedPoint)) := by
        rw [ResourceSet.getResource_set_self]
        exact fun hle => absurd (Int.lt_of_lt_of_le hpos hle) (Int.lt_irrefl _)
      rw [if_neg hno]
      refine ⟨?_, ?_⟩
      · rw [ResourceSet.getResource_set_self, if_pos ⟨hc, hpos⟩]
      · exact ⟨fun _ => ⟨hc, hpos⟩,
          fun _ => ResourceSet.mem_keys_set_self s p.1 _⟩
    · have hyes : (s.setResource p.1 (s.GetResource p.1 - p.2)).GetResource
          p.1 ≤ (⟨0⟩ : FixedPoint) := by
        rw [ResourceSet.getResource_set_self]
        exact Int.not_lt.mp hpos
      rw [if_pos hyes]
      refine ⟨?_, ?_⟩
      · rw [ResourceSet.getResource_erase_self, if_neg (fun hcc => hpos hcc.2)]
      · exact ⟨fun hmem =>
          absurd hmem (ResourceSet.not_mem_keys_erase_self _ _),
          fun hh => absurd hh.2 hpos⟩
  · rw [if_neg hc]
    have h0 : s.GetResource p.1 = ⟨0⟩ :=
      ResourceSet.getResource_of_not_contains s p.1 (by simpa using hc)
    have hle : s.GetResource p.1 ≤ (⟨0⟩ : FixedPoint) := by
      rw [h0]; exact Int.le_refl 0
    rw [if_pos hle]
    refine ⟨?_, ?_⟩
    · rw [ResourceSet.getResource_erase_self, if_neg (fun hcc => hc hcc.1)]
    · exact ⟨fun hmem => absurd hmem (ResourceSet.not_mem_keys_erase_self _ _),
        fun hh => absurd hh.1 hc⟩

theorem subtractOne_ne (s : ResourceSet) (p : String × FixedPoint) (m : String)
    (h : m ≠ p.1) :
    ((s.subtractOne p).GetResource m = s.GetResource m) ∧
    (m ∈ (s.subtractOne p).keys ↔ m ∈ s.keys) := by
  unfold ResourceSet.subtractOne
  by_cases hc : s.containsKey p.1 = true
  · rw [if_pos hc]
    by_cases he : (s.setResource p.1 (s.GetResource p.1 - p.2)).GetResource
        p.1 ≤ (⟨0⟩ : FixedPoint)
    · rw [if_pos he]
      refine ⟨?_, ?_⟩
      · rw [ResourceSet.getResource_erase_ne _ _ _ h,
          ResourceSet.getResource_set_ne _ _ _ _ h]
      · rw [ResourceSet.mem_keys_erase_ne _ _ _ h,
          ResourceSet.mem_keys_set_ne _ _ _ _ h]
    · rw [if_neg he]
      refine ⟨?_, ?_⟩
      · rw [ResourceSet.getResource_set_ne _ _ _ _ h]
      · rw [ResourceSet.mem_keys_set_ne _ _ _ _ h]
  · rw [if_neg hc]
    by_cases he : s.GetResource p.1 ≤ (⟨0⟩ : FixedPoint)
    · rw [if_pos he]
      refine ⟨?_, ?_⟩
      · rw [ResourceSet.getResource_erase_ne _ _ _ h]
      · rw [ResourceSet.mem_keys_erase_ne _ _ _ h]
    · rw [if_neg he]
      exact ⟨rfl, Iff.rfl⟩

theorem foldl_subtractOne_untouched (L : List (String × FixedPoint))
    (s : ResourceSet) (m : String) (hm : m ∉ alKeys L) :
    ((L.foldl ResourceSet.subtractOne s).GetResource m = s.GetResource m) ∧
    (m ∈ (L.foldl ResourceSet.subtractOne s).keys ↔ m ∈ s.keys) := by
  induction L generalizing s with
  | nil => exact ⟨rfl, Iff.rfl⟩
  | cons p L ih =>
    have hmp : m ≠ p.1 := by
      intro he
      exact hm (by rw [he]; exact List.mem_cons_self _ _)
    have hmL : m ∉ alKeys L := fun hh => hm (List.mem_cons_of_mem _ hh)
    rcases ih (s.subtractOne p) hmL with ⟨h1, h2⟩
    rcases subtractOne_ne s p m hmp with ⟨h3, h4⟩
    exact ⟨by rw [List.foldl_cons, h1, h3], by rw [List.foldl_cons, h2, h4]⟩

theorem alKeys_split {α : Type} (l : List (String × α)) (n : String)
    (h : n ∈ alKeys l) :
    ∃ l1 v l2, l = l1 ++ (n, v) :: l2 ∧ alContains l1 n = false := by
  induction l with
  | nil => simp [alKeys] at h
  | cons a l ih =>
    by_cases ha : a.1 = n
    · refine ⟨[], a.2, l, ?_, rfl⟩
      rw [← ha]
      simp
    · have h2 : n ∈ a.1 :: alKeys l := by simpa [alKeys] using h
      rcases List.mem_cons.mp h2 with h1 | h1
      · exact absurd h1.symm ha
      · rcases ih h1 with ⟨l1, v, l2, heq, hcon⟩
        refine ⟨a :: l1, v, l2, by rw [heq]; rfl, ?_⟩
        simp only [alContains, List.any_cons, Bool.or_eq_false_iff]
        refine ⟨by simpa using ha, ?_⟩
        simpa [alContains] using hcon

/-- C8: clamped subtract never fails: for every key of `other` the stored
value becomes `max(0, self[k] - other[k])` with entries reaching a
non-positive value erased (presence afterwards is equivalent to a positive
difference), all other keys are untouched, and `{CPU: 2} - {CPU: 3}` is the
empty set with the CPU key erased. -/
theorem c8_subtract_clamps_at_zero (a b : ResourceSet) (hb : b.Wf) :
    (∀ n ∈ b.keys,
       (a.SubtractResources b).GetResource n =
         ⟨max 0 (a.GetResource n - b.GetResource n).i⟩ ∧
       (n ∈ (a.SubtractResources b).keys ↔
         (⟨0⟩ : FixedPoint) < a.GetResource n - b.GetResource n)) ∧
    (∀ n, n ∉ b.keys →
       (a.SubtractResources b).GetResource n = a.GetResource n ∧
       (n ∈ (a.SubtractResources b).keys ↔ n ∈ a.keys)) ∧
    ResourceSet.SubtractResources ⟨[("CPU", FixedPoint.ofInt 2)]⟩
      ⟨[("CPU", FixedPoint.ofInt 3)]⟩ = ⟨[]⟩ := by
  refine ⟨?_, ?_, by decide⟩
  · intro n hn
    rcases alKeys_split b.entries n hn with ⟨l1, v, l2, heq, hcon⟩
    have hmemb : (n, v) ∈ b.entries := by
      rw [heq]
      exact List.mem_append_right _ (List.mem_cons_self _ _)
    have hvpos : (⟨0⟩ : FixedPoint) < v := hb.2 (n, v) hmemb
    have hbv : b.GetResource n = v := by
      unfold ResourceSet.GetResource
      rw [heq, alGet_append_of_not_contains _ _ _ hcon,
        alGet_cons_pos (n, v) l2 n rfl]
      rfl
    have hn1 : n ∉ alKeys l1 := by
      rw [mem_alKeys_iff]
      simp [hcon]
    have hn2 : n ∉ alKeys l2 := by
      have hnd : (alKeys b.entries).Nodup := hb.1
      rw [heq] at hnd
      unfold alKeys at hnd
      rw [List.map_append, List.map_cons] at hnd
      rcases List.nodup_append.mp hnd with ⟨_, hnd2, _⟩
      intro hmem
      exact (List.nodup_cons.mp hnd2).1 (by simpa [alKeys] using hmem)
    unfold ResourceSet.SubtractResources
    rw [heq, List.foldl_append, List.foldl_cons]
    rcases foldl_subtractOne_untouched l2
      ((l1.foldl ResourceSet.subtractOne a).subtractOne (n, v)) n hn2 with
      ⟨hpost1, hpost2⟩
    rcases foldl_subtractOne_untouched l1 a n hn1 with ⟨hpre1, hpre2⟩
    rcases subtractOne_self (l1.foldl ResourceSet.subtractOne a) (n, v) with
      ⟨hmid1, hmid2⟩
    simp only at hmid1 hmid2
    have hcontains : (l1.foldl ResourceSet.subtractOne a).containsKey n =
        a.containsKey n := by
      have h1 := hpre2
      rw [ResourceSet.mem_keys_iff, ResourceSet.mem_keys_iff] at h1
      cases hca : a.containsKey n with
      | true => exact h1.mpr hca
      | false =>
        cases hcb : (l1.foldl ResourceSet.subtractOne a).containsKey n with
        | false => rfl
        | true => exact absurd (h1.mp hcb) (by simp [hca])
    rw [hbv]
    constructor
    · rw [hpost1, hmid1, hpre1, hcontains]
      by_cases hca : a.containsKey n = true
      · by_cases hpos : (⟨0⟩ : FixedPoint) < a.GetResource n - v
        · rw [if_pos ⟨hca, hpos⟩]
          have hI : (0 : Int) < (a.GetResource n - v).i := hpos
          have hmx : max 0 (a.GetResource n - v).i =
              (a.GetResource n - v).i := by omega
          rw [hmx]
        · rw [if_neg (fun hh => hpos hh.2)]
          have hI : ¬ ((0 : Int) < (a.GetResource n - v).i) := hpos
          have hmx : max 0 (a.GetResource n - v).i = 0 := by omega
          rw [hmx]
      · have hca2 : a.containsKey n = false := by
          cases hcc : a.containsKey n with
          | true => exact absurd hcc hca
          | false => rfl
        rw [if_neg (fun hh => hca hh.1)]
        have h0 : a.GetResource n = ⟨0⟩ :=
          ResourceSet.getResource_of_not_contains a n hca2
        have hI : ((a.GetResource n - v).i) < 0 := by
          have hv : (0 : Int) < v.i := hvpos
          have : (a.GetResource n - v).i = (a.GetResource n).i - v.i := rfl
          rw [this, h0]
          show (0 : Int) - v.i < 0
          omega
        have hmx : max 0 (a.GetResource n - v).i = 0 := by omega
        rw [hmx]
    · rw [hpost2, hmid2, hpre1, hcontains]
      constructor
      · exact fun hh => hh.2
      · intro hpos
        refine ⟨?_, hpos⟩
        by_cases hca : a.containsKey n = true
        · exact hca
        · exfalso
          have hca2 : a.containsKey n = false := by
            cases hcc : a.containsKey n with
            | true => exact absurd hcc hca
            | false => rfl
          have h0 : a.GetResource n = ⟨0⟩ :=
            ResourceSet.getResource_of_not_contains a n hca2
          have hI : ((a.GetResource n - v).i) < 0 := by
            have hv : (0 : Int) < v.i := hvpos
            have he : (a.GetResource n - v).i = (a.GetResource n).i - v.i := rfl
            rw [he, h0]
            show (0 : Int) - v.i < 0
            omega
          have hI2 : (0 : Int) < (a.GetResource n - v).i := hpos
          omega
  · intro n hn
    exact foldl_subtractOne_untouched b.entries a n hn

/-- Witness for C8 at `a = {CPU: 2, GPU: 1}`, `b = {CPU: 3}`. -/
theorem c8_witness :
    (ResourceSet.Wf ⟨[("CPU", FixedPoint.ofInt 3)]⟩) ∧
    (∀ n ∈ (ResourceSet.mk [("CPU", FixedPoint.ofInt 3)]).keys,
       ((ResourceSet.mk [("CPU", FixedPoint.ofInt 2), ("GPU", FixedPoint.ofInt 1)]).SubtractResources
           ⟨[("CPU", FixedPoint.ofInt 3)]⟩).GetResource n =
         ⟨max 0 ((ResourceSet.mk [("CPU", FixedPoint.ofInt 2), ("GPU", FixedPoint.ofInt 1)]).GetResource n -
           (ResourceSet.mk [("CPU", FixedPoint.ofInt 3)]).GetResource n).i⟩ ∧
       (n ∈ ((ResourceSet.mk [("CPU", FixedPoint.ofInt 2), ("GPU", FixedPoint.ofInt 1)]).SubtractResources
           ⟨[("CPU", FixedPoint.ofInt 3)]⟩).keys ↔
         (⟨0⟩ : FixedPoint) <
           (ResourceSet.mk [("CPU", FixedPoint.ofInt 2), ("GPU", FixedPoint.ofInt 1)]).GetResource n -
           (ResourceSet.mk [("CPU", FixedPoint.ofInt 3)]).GetResource n)) :=
  ⟨by decide,
   (c8_subtract_clamps_at_zero
     ⟨[("CPU", FixedPoint.ofInt 2), ("GPU", FixedPoint.ofInt 1)]⟩
     ⟨[("CPU", FixedPoint.ofInt 3)]⟩ (by decide)).1⟩

/-! ## Claim C9: strict subtract -/

theorem subtractOneStrict_none_iff (s : ResourceSet) (p : String × FixedPoint) :
    s.subtractOneStrict p = none ↔
      ¬ (s.containsKey p.1 = true ∧ p.2 ≤ s.GetResource p.1) := by
  unfold ResourceSet.subtractOneStrict
  by_cases hc : s.containsKey p.1 = true
  · rw [if_pos hc]
    by_cases hneg : s.GetResource p.1 - p.2 < (⟨0⟩ : FixedPoint)
    · rw [if_pos hneg]
      simp only [true_iff, hc, true_and]
      intro hle
      have h1 : (s.GetResource p.1).i - p.2.i < 0 := hneg
      have h2 : p.2.i ≤ (s.GetResource p.1).i := hle
      omega
    · rw [if_neg hneg]
      have hle : p.2 ≤ s.GetResource p.1 := by
        have h1 : ¬ ((s.GetResource p.1).i - p.2.i < 0) := hneg
        show p.2.i ≤ (s.GetResource p.1).i
        omega
      by_cases hz : s.GetResource p.1 - p.2 = (⟨0⟩ : FixedPoint)
      · rw [if_pos hz]
        simp [hc, hle]
      · rw [if_neg hz]
        simp [hc, hle]
  · rw [if_neg hc]
    simp [hc]

theorem subtractOneStrict_some_self (s : ResourceSet) (p : String × FixedPoint)
    (s2 : ResourceSet) (h : s.subtractOneStrict p = some s2) :
    s2.GetResource p.1 = s.GetResource p.1 - p.2 ∧
    (p.1 ∈ s2.keys ↔ p.2 < s.GetResource p.1) := by
  unfold ResourceSet.subtractOneStrict at h
  by_cases hc : s.containsKey p.1 = true
  · rw [if_pos hc] at h
    by_cases hneg : s.GetResource p.1 - p.2 < (⟨0⟩ : FixedPoint)
    · rw [if_pos hneg] at h
      exact Option.noConfusion h
    · rw [if_neg hneg] at h
      by_cases hz : s.GetResource p.1 - p.2 = (⟨0⟩ : FixedPoint)
      · rw [if_pos hz] at h
        have h2 : s2 = s.eraseResource p.1 := by
          cases h; rfl
        subst h2
        refine ⟨?_, ?_⟩
        · rw [ResourceSet.getResource_erase_self, hz]
        · constructor
          · intro hmem
            exact absurd hmem (ResourceSet.not_mem_keys_erase_self _ _)
          · intro hlt
            exfalso
            have h1 : (s.GetResource p.1).i - p.2.i = 0 :=
              congrArg FixedPoint.i hz
            have h2 : p.2.i < (s.GetResource p.1).i := hlt
            omega
      · rw [if_neg hz] at h
        have h2 : s2 = s.setResource p.1 (s.GetResource p.1 - p.2) := by
          cases h; rfl
        subst h2
        refine ⟨ResourceSet.getResource_set_self _ _ _, ?_⟩
        constructor
        · intro _
          have h1 : ¬ ((s.GetResource p.1).i - p.2.i < 0) := hneg
          have h3 : ¬ ((s.GetResource p.1).i - p.2.i = 0) := fun hh =>
            hz ((FixedPoint.ext_iff (s.GetResource p.1 - p.2) ⟨0⟩).mpr hh)
          show p.2.i < (s.GetResource p.1).i
          omega
        · intro _
          exact ResourceSet.mem_keys_set_self _ _ _
  · rw [if_neg hc] at h
    exact Option.noConfusion h

theorem subtractOneStrict_some_ne (s : ResourceSet) (p : String × FixedPoint)
    (s2 : ResourceSet) (m : String) (hm : m ≠ p.1)
    (h : s.subtractOneStrict p = some s2) :
    s2.GetResource m = s.GetResource m ∧ (m ∈ s2.keys ↔ m ∈ s.keys) ∧
    s2.containsKey m = s.containsKey m := by
  have hkc : (m ∈ s2.keys ↔ m ∈ s.keys) → s2.containsKey m = s.containsKey m := by
    intro hiff
    rw [ResourceSet.mem_keys_iff, ResourceSet.mem_keys_iff] at hiff
    cases hc2 : s2.containsKey m with
    | true => exact (hiff.mp hc2).symm
    | false =>
      cases hcs : s.containsKey m with
      | true => exact absurd (hiff.mpr hcs) (by simp [hc2])
      | false => rfl
  unfold ResourceSet.subtractOneStrict at h
  by_cases hc : s.containsKey p.1 = true
  · rw [if_pos hc] at h
    by_cases hneg : s.GetResource p.1 - p.2 < (⟨0⟩ : FixedPoint)
    · rw [if_pos hneg] at h
      exact Option.noConfusion h
    · rw [if_neg hneg] at h
      by_cases hz : s.GetResource p.1 - p.2 = (⟨0⟩ : FixedPoint)
      · rw [if_pos hz] at h
        have h2 : s2 = s.eraseResource p.1 := by cases h; rfl
        subst h2
        have hmem := ResourceSet.mem_keys_erase_ne s p.1 m hm
        exact ⟨ResourceSet.getResource_erase_ne _ _ _ hm, hmem, hkc hmem⟩
      · rw [if_neg hz] at h
        have h2 : s2 = s.setResource p.1 (s.GetResource p.1 - p.2) := by
          cases h; rfl
        subst h2
        have hmem := ResourceSet.mem_keys_set_ne s p.1
          (s.GetResource p.1 - p.2) m hm
        exact ⟨ResourceSet.getResource_set_ne _ _ _ _ hm, hmem, hkc hmem⟩
  · rw [if_neg hc] at h
    exact Option.noConfusion h

theorem subtractOneStrict_some_pos (s : ResourceSet) (p : String × FixedPoint)
    (s2 : ResourceSet) (hpos : ∀ q ∈ s.entries, (⟨0⟩ : FixedPoint) < q.2)
    (h : s.subtractOneStrict p = some s2) :
    ∀ q ∈ s2.entries, (⟨0⟩ : FixedPoint) < q.2 := by
  unfold ResourceSet.subtractOneStrict at h
  by_cases hc : s.containsKey p.1 = true
  · rw [if_pos hc] at h
    by_cases hneg : s.GetResource p.1 - p.2 < (⟨0⟩ : FixedPoint)
    · rw [if_pos hneg] at h
      exact Option.noConfusion h
    · rw [if_neg hneg] at h
      by_cases hz : s.GetResource p.1 - p.2 = (⟨0⟩ : FixedPoint)
      · rw [if_pos hz] at h
        have h2 : s2 = s.eraseResource p.1 := by cases h; rfl
        subst h2
        intro q hq
        exact hpos q (mem_alErase _ _ _ hq)
      · rw [if_neg hz] at h
        have h2 : s2 = s.setResource p.1 (s.GetResource p.1 - p.2) := by
          cases h; rfl
        subst h2
        intro q hq
        rcases mem_alSet _ _ _ _ hq with hval | hmem
        · rw [hval]
          have h1 : ¬ ((s.GetResource p.1).i - p.2.i < 0) := hneg
          have h3 : (s.GetResource p.1).i - p.2.i ≠ 0 := fun hh =>
            hz ((FixedPoint.ext_iff (s.GetResource p.1 - p.2) ⟨0⟩).mpr hh)
          show (0 : Int) < (s.GetResource p.1).i - p.2.i
          omega
        · exact hpos q hmem
  · rw [if_neg hc] at h
    exact Option.noConfusion h

theorem foldlM_strict_isSome_iff (L : List (String × FixedPoint))
    (s : ResourceSet) (hnd : (alKeys L).Nodup) :
    (L.foldlM ResourceSet.subtractOneStrict s).isSome = true ↔
      ∀ p ∈ L, s.containsKey p.1 = true ∧ p.2 ≤ s.GetResource p.1 := by
  induction L generalizing s with
  | nil => simp [List.foldlM]
  | cons p L ih =>
    rw [List.foldlM_cons]
    have hnd2 : (alKeys L).Nodup := by
      simp only [alKeys, List.map_cons, List.nodup_cons] at hnd
      exact hnd.2
    have hp1 : p.1 ∉ alKeys L := by
      simp only [alKeys, List.map_cons, List.nodup_cons] at hnd
      exact hnd.1
    cases hstep : s.subtractOneStrict p with
    | none =>
      rw [option_none_bind_eq]
      simp only [Option.isSome_none, Bool.false_eq_true, false_iff]
      intro hall
      exact (subtractOneStrict_none_iff s p).mp hstep
        (hall p (List.mem_cons_self _ _))
    | some s1 =>
      rw [option_some_bind_eq]
      rw [ih s1 hnd2]
      have hhead : s.containsKey p.1 = true ∧ p.2 ≤ s.GetResource p.1 := by
        by_contra hcon
        rw [← subtractOneStrict_none_iff s p] at hcon
        rw [hcon] at hstep
        exact absurd hstep (by simp)
      constructor
      · intro hall
        intro q hq
        rcases List.mem_cons.mp hq with hq1 | hq1
        · rw [hq1]; exact hhead
        · have hqne : q.1 ≠ p.1 := by
            intro he
            exact hp1 (by rw [← he]; exact List.mem_map.mpr ⟨q, hq1, rfl⟩)
          rcases subtractOneStrict_some_ne s p s1 q.1 hqne hstep with
            ⟨hg, _, hcK⟩
          rcases hall q hq1 with ⟨h1, h2⟩
          exact ⟨by rw [← hcK]; exact h1, by rw [← hg]; exact h2⟩
      · intro hall q hq
        have hqne : q.1 ≠ p.1 := by
          intro he
          exact hp1 (by rw [← he]; exact List.mem_map.mpr ⟨q, hq, rfl⟩)
        rcases subtractOneStrict_some_ne s p s1 q.1 hqne hstep with ⟨hg, _, hcK⟩
        rcases hall q (List.mem_cons_of_mem _ hq) with ⟨h1, h2⟩
        exact ⟨by rw [hcK]; exact h1, by rw [hg]; exact h2⟩

theorem foldlM_strict_untouched (L : List (String × FixedPoint))
    (s s2 : ResourceSet) (m : String) (hm : m ∉ alKeys L)
    (h : L.foldlM ResourceSet.subtractOneStrict s = some s2) :
    s2.GetResource m = s.GetResource m ∧ (m ∈ s2.keys ↔ m ∈ s.keys) := by
  induction L generalizing s with
  | nil =>
    simp only [List.foldlM] at h
    cases h
    exact ⟨rfl, Iff.rfl⟩
  | cons p L ih =>
    rw [List.foldlM_cons] at h
    cases hstep : s.subtractOneStrict p with
    | none =>
      rw [hstep, option_none_bind_eq] at h
      exact Option.noConfusion h
    | some s1 =>
      rw [hstep, option_some_bind_eq] at h
      have hmp : m ≠ p.1 := by
        intro he
        exact hm (by rw [he]; exact List.mem_cons_self _ _)
      have hmL : m ∉ alKeys L := fun hh => hm (List.mem_cons_of_mem _ hh)
      rcases ih s1 hmL h with ⟨h1, h2⟩
      rcases subtractOneStrict_some_ne s p s1 m hmp hstep with ⟨h3, h4, _⟩
      exact ⟨h1.trans h3, h2.trans h4⟩

theorem foldlM_strict_pos (L : List (String × FixedPoint)) (s s2 : ResourceSet)
    (hpos : ∀ q ∈ s.entries, (⟨0⟩ : FixedPoint) < q.2)
    (h : L.foldlM ResourceSet.subtractOneStrict s = some s2) :
    ∀ q ∈ s2.entries, (⟨0⟩ : FixedPoint) < q.2 := by
  induction L generalizing s with
  | nil =>
    simp only [List.foldlM] at h
    cases h
    exact hpos
  | cons p L ih =>
    rw [List.foldlM_cons] at h
    cases hstep : s.subtractOneStrict p with
    | none =>
      rw [hstep, option_none_bind_eq] at h
      exact Option.noConfusion h
    | some s1 =>
      rw [hstep, option_some_bind_eq] at h
      exact ih s1 (subtractOneStrict_some_pos s p s1 hpos hstep) h

/-- C9: strict subtract is fatal exactly when the documented precondition
fails (every key of `other` must exist in `self` with at least the
subtracted quantity; e.g. `{CPU: 2, GPU: 1}.SubtractStrict({TPU: 1})` is
fatal); under the precondition it subtracts per key, erases entries that
become exactly zero, leaves other keys untouched, and leaves no non-positive
entry. -/
theorem c9_strict_subtract_fatal_iff (a b : ResourceSet) (ha : a.Wf)
    (hb : b.Wf) :
    (a.SubtractResourcesStrict b = none ↔ ¬ a.StrictPre b) ∧
    (∀ r, a.SubtractResourcesStrict b = some r →
       (∀ p ∈ r.entries, (⟨0⟩ : FixedPoint) < p.2) ∧
       (∀ n ∈ b.keys,
          r.GetResource n = a.GetResource n - b.GetResource n ∧
          (n ∈ r.keys ↔ b.GetResource n < a.GetResource n)) ∧
       (∀ n, n ∉ b.keys →
          r.GetResource n = a.GetResource n ∧ (n ∈ r.keys ↔ n ∈ a.keys))) ∧
    ResourceSet.SubtractResourcesStrict
      ⟨[("CPU", FixedPoint.ofInt 2), ("GPU", FixedPoint.ofInt 1)]⟩
      ⟨[("TPU", FixedPoint.ofInt 1)]⟩ = none := by
  refine ⟨?_, ?_, by decide⟩
  · have hiff := foldlM_strict_isSome_iff b.entries a hb.1
    unfold ResourceSet.SubtractResourcesStrict ResourceSet.StrictPre
    constructor
    · intro hnone hpre
      have : (b.entries.foldlM ResourceSet.subtractOneStrict a).isSome =
          true := hiff.mpr hpre
      rw [hnone] at this
      simp at this
    · intro hnpre
      cases hres : b.entries.foldlM ResourceSet.subtractOneStrict a with
      | none => rfl
      | some r =>
        exfalso
        exact hnpre (hiff.mp (by rw [hres]; rfl))
  · intro r hr
    unfold ResourceSet.SubtractResourcesStrict at hr
    refine ⟨foldlM_strict_pos b.entries a r ha.2 hr, ?_, ?_⟩
    · intro n hn
      rcases alKeys_split b.entries n hn with ⟨l1, v, l2, heq, hcon⟩
      have hbv : b.GetResource n = v := by
        unfold ResourceSet.GetResource
        rw [heq, alGet_append_of_not_contains _ _ _ hcon,
          alGet_cons_pos (n, v) l2 n rfl]
        rfl
      have hn1 : n ∉ alKeys l1 := by
        rw [mem_alKeys_iff]
        simp [hcon]
      have hn2 : n ∉ alKeys l2 := by
        have hnd : (alKeys b.entries).Nodup := hb.1
        rw [heq] at hnd
        unfold alKeys at hnd
        rw [List.map_append, List.map_cons] at hnd
        rcases List.nodup_append.mp hnd with ⟨_, hnd2, _⟩
        intro hmem
        exact (List.nodup_cons.mp hnd2).1 (by simpa [alKeys] using hmem)
      rw [heq, List.foldlM_append] at hr
      rcases option_bind_eq_some _ _ _ hr with ⟨s1, hfold1, hrest⟩
      rw [List.foldlM_cons] at hrest
      rcases option_bind_eq_some _ _ _ hrest with ⟨s2, hstep, hfold2⟩
      rcases foldlM_strict_untouched l1 a s1 n hn1 hfold1 with ⟨hg1, hk1⟩
      rcases subtractOneStrict_some_self s1 (n, v) s2 hstep with ⟨hg2, hk2⟩
      rcases foldlM_strict_untouched l2 s2 r n hn2 hfold2 with ⟨hg3, hk3⟩
      simp only at hg2 hk2
      rw [hbv]
      constructor
      · rw [hg3, hg2, hg1]
      · rw [hk3, hk2, hg1]
    · intro n hn
      exact foldlM_strict_untouched b.entries a r n hn hr

/-- Witness for C9 at `a = {CPU: 2, GPU: 1}`, `b = {CPU: 1}` (the
precondition holds, so the subtraction succeeds). -/
theorem c9_witness :
    (ResourceSet.Wf
      ⟨[("CPU", FixedPoint.ofInt 2), ("GPU", FixedPoint.ofInt 1)]⟩) ∧
    (ResourceSet.Wf ⟨[("CPU", FixedPoint.ofInt 1)]⟩) ∧
    ((ResourceSet.mk [("CPU", FixedPoint.ofInt 2),
        ("GPU", FixedPoint.ofInt 1)]).SubtractResourcesStrict
        ⟨[("CPU", FixedPoint.ofInt 1)]⟩ = none ↔
      ¬ (ResourceSet.mk [("CPU", FixedPoint.ofInt 2),
          ("GPU", FixedPoint.ofInt 1)]).StrictPre
          ⟨[("CPU", FixedPoint.ofInt 1)]⟩) :=
  ⟨by decide, by decide,
   (c9_strict_subtract_fatal_iff
     ⟨[("CPU", FixedPoint.ofInt 2), ("GPU", FixedPoint.ofInt 1)]⟩
     ⟨[("CPU", FixedPoint.ofInt 1)]⟩ (by decide) (by decide)).1⟩

/-! ## Claim C4: amended -/

theorem acquireStep_inv (st st2 : ResourceIdSet × List (String × ResourceIds))
    (p : String × FixedPoint) (hinv : st.1.NonEmptyInv)
    (h : ResourceIdSet.acquireStep st p = some st2) : st2.1.NonEmptyInv := by
  unfold ResourceIdSet.acquireStep at h
  split at h
  · exact Option.noConfusion h
  · split at h
    · exact Option.noConfusion h
    · rename_i pool hlook r hacq
      simp only [Option.some_inj] at h
      by_cases hz : r.2.TotalQuantityIsZero = true
      · rw [if_pos hz] at h
        rw [← h]
        intro pr hpr
        exact hinv pr (mem_alErase _ _ _ hpr)
      · rw [if_neg hz] at h
        rw [← h]
        intro pr hpr
        rcases mem_alSet _ _ _ _ hpr with hval | hmem
        · rw [hval]
          cases hb : r.2.TotalQuantityIsZero with
          | false => rfl
          | true => exact absurd hb hz
        · exact hinv pr hmem

theorem foldlM_acquireStep_inv (req : List (String × FixedPoint))
    (st st2 : ResourceIdSet × List (String × ResourceIds))
    (hinv : st.1.NonEmptyInv)
    (h : req.foldlM ResourceIdSet.acquireStep st = some st2) :
    st2.1.NonEmptyInv := by
  induction req generalizing st with
  | nil =>
    simp only [List.foldlM] at h
    cases h
    exact hinv
  | cons p req ih =>
    rw [List.foldlM_cons] at h
    rcases option_bind_eq_some _ _ _ h with ⟨st1, hstep, hrest⟩
    exact ih st1 (acquireStep_inv st st1 p hinv hstep) hrest

/-- C4 amended: `ResourceIdSet::Acquire` preserves the invariant that every
present resource name maps to a non-empty pool (a pool emptied by the
acquire is erased together with its key); `AddOrUpdateResource`, however,
does not preserve it — `AddOrUpdateResource(name, 0)` maps `name` to an
empty pool, as the counterexample shows. -/
theorem c4_acquire_preserves_nonempty_pools (S : ResourceIdSet)
    (req : ResourceSet) (S1 g : ResourceIdSet) (hinv : S.NonEmptyInv)
    (h : S.Acquire req = some (S1, g)) : S1.NonEmptyInv := by
  unfold ResourceIdSet.Acquire at h
  rcases Option.map_eq_some'.mp h with ⟨st2, hfold, hpair⟩
  have hS1 : S1 = st2.1 := by
    have := congrArg Prod.fst hpair
    exact this.symm
  rw [hS1]
  exact foldlM_acquireStep_inv req.entries (S, []) st2 (by
    intro pr hpr
    exact hinv pr hpr) hfold

/-- Witness for the amended C4: acquiring the whole CPU pool erases the key
and preserves the invariant. -/
theorem c4_witness :
    (ResourceIdSet.NonEmptyInv ⟨[("CPU", ResourceIds.ofCapacity 1)]⟩) ∧
    ((ResourceIdSet.mk [("CPU", ResourceIds.ofCapacity 1)]).Acquire
        ⟨[("CPU", FixedPoint.ofInt 1)]⟩ =
      some (⟨[]⟩, ⟨[("CPU", ResourceIds.ofWholeIds [0])]⟩)) ∧
    ResourceIdSet.NonEmptyInv ⟨[]⟩ :=
  ⟨by decide, by decide,
   c4_acquire_preserves_nonempty_pools ⟨[("CPU", ResourceIds.ofCapacity 1)]⟩
     ⟨[("CPU", FixedPoint.ofInt 1)]⟩ ⟨[]⟩
     ⟨[("CPU", ResourceIds.ofWholeIds [0])]⟩ (by decide) (by decide)⟩

/-! ## Claim C6: available stays under total -/

theorem ResourceSet.getResource_nonneg (t : ResourceSet)
    (ht : ∀ p ∈ t.entries, (⟨0⟩ : FixedPoint) < p.2) (n : String) :
    (⟨0⟩ : FixedPoint) ≤ t.GetResource n := by
  unfold ResourceSet.GetResource
  cases hg : alGet t.entries n with
  | none => exact Int.le_refl 0
  | some v =>
    have hmem : v ∈ t.entries.map (fun p => p.2) := by
      unfold alGet at hg
      rcases Option.map_eq_some'.mp hg with ⟨q, hq, hqe⟩
      exact List.mem_map.mpr ⟨q, List.mem_of_find?_eq_some hq, hqe⟩
    rcases List.mem_map.mp hmem with ⟨q, hq, hqe⟩
    have := ht q hq
    rw [hqe] at this
    exact Int.le_of_lt this

theorem fmin_le_right (a b : FixedPoint) : FixedPoint.fmin a b ≤ b := by
  unfold FixedPoint.fmin
  by_cases h : a ≤ b
  · rw [if_pos h]; exact h
  · rw [if_neg h]; exact Int.le_refl b.i

theorem addCappedOne_covered (t s : ResourceSet) (p : String × FixedPoint)
    (h : Covered s t) : Covered (ResourceSet.addCappedOne t s p) t := by
  unfold ResourceSet.addCappedOne
  by_cases hc : t.containsKey p.1 = true
  · rw [if_pos hc]
    intro n
    by_cases hn : n = p.1
    · subst hn
      rw [ResourceSet.getResource_set_self]
      exact fmin_le_right _ _
    · rw [ResourceSet.getResource_set_ne _ _ _ _ hn]
      exact h n
  · rw [if_neg hc]
    exact h

theorem addCapped_covered (other t s : ResourceSet) (h : Covered s t) :
    Covered (s.AddResourcesCapacityConstrained other t) t := by
  unfold ResourceSet.AddResourcesCapacityConstrained
  induction other.entries generalizing s with
  | nil => exact h
  | cons p L ih =>
    rw [List.foldl_cons]
    exact ih _ (addCappedOne_covered t s p h)

theorem subtractOneStrict_covered (t s s2 : ResourceSet)
    (p : String × FixedPoint)
    (hp : (⟨0⟩ : FixedPoint) ≤ p.2) (h : s.subtractOneStrict p = some s2)
    (hc : Covered s t) : Covered s2 t := by
  intro n
  by_cases hn : n = p.1
  · subst hn
    rcases subtractOneStrict_some_self s p s2 h with ⟨hg, _⟩
    rw [hg]
    have h1 : (s.GetResource p.1).i ≤ (t.GetResource p.1).i := hc p.1
    have h2 : (0 : Int) ≤ p.2.i := hp
    show (s.GetResource p.1).i - p.2.i ≤ (t.GetResource p.1).i
    omega
  · rcases subtractOneStrict_some_ne s p s2 n hn h with ⟨hg, _, _⟩
    rw [hg]
    exact hc n

theorem foldlM_strict_covered (L : List (String × FixedPoint))
    (t : ResourceSet) :
    ∀ s s2 : ResourceSet, (∀ p ∈ L, (⟨0⟩ : FixedPoint) ≤ p.2) →
      L.foldlM ResourceSet.subtractOneStrict s = some s2 →
      Covered s t → Covered s2 t := by
  induction L with
  | nil =>
    intro s s2 _ h hc
    simp only [List.foldlM] at h
    cases h
    exact hc
  | cons p L ih =>
    intro s s2 hL h hc
    rw [List.foldlM_cons] at h
    rcases option_bind_eq_some _ _ _ h with ⟨s1, hstep, hrest⟩
    exact ih s1 s2 (fun q hq => hL q (List.mem_cons_of_mem _ hq)) hrest
      (subtractOneStrict_covered t s s1 p
        (hL p (List.mem_cons_self _ _)) hstep hc)

theorem applyOp_covered (t : ResourceSet)
    (s s2 : SchedulingResources) (op : SchedOp) (hop : op.Nonneg)
    (hst : s.resources_total = t)
    (hc : Covered s.resources_available t)
    (h : s.applyOp op = some s2) :
    s2.resources_total = t ∧ Covered s2.resources_available t := by
  cases op with
  | acq r =>
    unfold SchedulingResources.applyOp SchedulingResources.Acquire at h
    rcases Option.map_eq_some'.mp h with ⟨a2, hsub, hs2⟩
    rw [← hs2]
    refine ⟨hst, ?_⟩
    unfold ResourceSet.SubtractResourcesStrict at hsub
    have hop2 : ∀ p ∈ r.entries, (⟨0⟩ : FixedPoint) ≤ p.2 := hop
    exact foldlM_strict_covered r.entries t s.resources_available a2 hop2
      hsub hc
  | rel r =>
    unfold SchedulingResources.applyOp SchedulingResources.Release at h
    simp only [Option.some_inj] at h
    rw [← h]
    refine ⟨hst, ?_⟩
    show Covered (s.resources_available.AddResourcesCapacityConstrained r
      s.resources_total) t
    rw [hst]
    exact addCapped_covered r t s.resources_available hc

theorem runOps_covered (t : ResourceSet) (ops : List SchedOp)
    (hops : ∀ op ∈ ops, op.Nonneg) :
    ∀ s s2, s.resources_total = t → Covered s.resources_available t →
      runOps s ops = some s2 →
      s2.resources_total = t ∧ Covered s2.resources_available t := by
  induction ops with
  | nil =>
    intro s s2 hst hc h
    unfold runOps at h
    simp only [List.foldlM] at h
    cases h
    exact ⟨hst, hc⟩
  | cons op ops ih =>
    intro s s2 hst hc h
    unfold runOps at h
    rw [List.foldlM_cons] at h
    rcases option_bind_eq_some _ _ _ h with ⟨s1, hstep, hrest⟩
    rcases applyOp_covered t s s1 op (hops op (List.mem_cons_self _ _)) hst
      hc hstep with ⟨hst1, hc1⟩
    exact ih (fun o ho => hops o (List.mem_cons_of_mem _ ho)) s1 s2 hst1 hc1
      hrest

/-- C6: starting from `available = total`, any sequence of `Acquire` and
`Release` calls that does not abort keeps `total` unchanged and keeps
`available` a per-key subset of `total`: acquire strictly subtracts and
release is the capped add `AddResourcesCapacityConstrained`, which never
pushes a key of `total` above its total value. -/
theorem c6_available_subset_of_total (t : ResourceSet) (ops : List SchedOp)
    (s2 : SchedulingResources)
    (hops : ∀ op ∈ ops, op.Nonneg)
    (h : runOps (SchedulingResources.ofTotal t) ops = some s2) :
    s2.resources_total = t ∧
    Covered s2.resources_available s2.resources_total := by
  rcases runOps_covered t ops hops (SchedulingResources.ofTotal t) s2 rfl
    (fun n => Int.le_refl _) h with ⟨h1, h2⟩
  refine ⟨h1, ?_⟩
  rw [h1]
  exact h2

/-- Witness for C6: on `total = {CPU: 1}`, acquire the CPU then release it;
available ends at `{CPU: 1}` and stays under total. -/
theorem c6_witness :
    (runOps (SchedulingResources.ofTotal ⟨[("CPU", FixedPoint.ofInt 1)]⟩)
        [SchedOp.acq ⟨[("CPU", FixedPoint.ofInt 1)]⟩,
         SchedOp.rel ⟨[("CPU", FixedPoint.ofInt 1)]⟩] =
      some ⟨⟨[("CPU", FixedPoint.ofInt 1)]⟩, ⟨[("CPU", FixedPoint.ofInt 1)]⟩,
        ⟨[]⟩, ⟨[]⟩⟩) ∧
    ((SchedulingResources.mk ⟨[("CPU", FixedPoint.ofInt 1)]⟩
        ⟨[("CPU", FixedPoint.ofInt 1)]⟩ ⟨[]⟩ ⟨[]⟩).resources_total =
        ⟨[("CPU", FixedPoint.ofInt 1)]⟩ ∧
      Covered (SchedulingResources.mk ⟨[("CPU", FixedPoint.ofInt 1)]⟩
        ⟨[("CPU", FixedPoint.ofInt 1)]⟩ ⟨[]⟩ ⟨[]⟩).resources_available
        (SchedulingResources.mk ⟨[("CPU", FixedPoint.ofInt 1)]⟩
        ⟨[("CPU", FixedPoint.ofInt 1)]⟩ ⟨[]⟩ ⟨[]⟩).resources_total) :=
  ⟨by decide,
   c6_available_subset_of_total ⟨[("CPU", FixedPoint.ofInt 1)]⟩
     [SchedOp.acq ⟨[("CPU", FixedPoint.ofInt 1)]⟩,
      SchedOp.rel ⟨[("CPU", FixedPoint.ofInt 1)]⟩]
     ⟨⟨[("CPU", FixedPoint.ofInt 1)]⟩, ⟨[("CPU", FixedPoint.ofInt 1)]⟩,
       ⟨[]⟩, ⟨[]⟩⟩
     (by decide) (by decide)⟩

/-! ## Claim C10: emptied pools forget their shrink state -/

/-- The shape of every pool granted by `ResourceIds::Acquire`: no decrement
backlog and a declared capacity equal to the granted quantity. -/
def grantShape (r : ResourceIds) : Prop :=
  r.decrement_backlog = 0 ∧ r.total_capacity = r.TotalQuantity

instance (r : ResourceIds) : Decidable (grantShape r) := by
  unfold grantShape; infer_instance

theorem ofWholeIds_grantShape (l : List Int) :
    grantShape (ResourceIds.ofWholeIds l) := by
  refine ⟨rfl, ?_⟩
  rw [FixedPoint.ext_iff]
  show ((l.length : Int) * 10000) =
    (l.length : Int) * 10000 + (([] : List (Int × FixedPoint)).map
      (fun p => p.2.i)).sum
  simp

theorem ofFracIds_grantShape (l : List (Int × FixedPoint)) :
    grantShape (ResourceIds.ofFracIds l) := by
  refine ⟨rfl, ?_⟩
  rw [FixedPoint.ext_iff]
  show (l.map (fun p => p.2.i)).sum =
    ((([] : List Int).length : Int)) * 10000 + (l.map (fun p => p.2.i)).sum
  simp

theorem acquire_grantShape (s : ResourceIds) (q : FixedPoint)
    (g s1 : ResourceIds) (h : s.Acquire q = some (g, s1)) : grantShape g := by
  unfold ResourceIds.Acquire at h
  split at h
  · split at h
    · dsimp only at h
      split at h
      · simp only [Option.some_inj, Prod.mk.injEq] at h
        rw [← h.1]
        exact ofWholeIds_grantShape _
      · exact Option.noConfusion h
    · exact Option.noConfusion h
  · split at h
    · split at h
      · exact Option.noConfusion h
      · simp only [Option.some_inj, Prod.mk.injEq] at h
        rw [← h.1]
        exact ofFracIds_grantShape _
    · split at h
      · exact Option.noConfusion h
      · simp only [Option.some_inj, Prod.mk.injEq] at h
        rw [← h.1]
        exact ofFracIds_grantShape _

theorem alGet_mem {α : Type} (l : List (String × α)) (n : String) (v : α)
    (h : alGet l n = some v) : (n, v) ∈ l := by
  unfold alGet at h
  rcases Option.map_eq_some'.mp h with ⟨q, hq, hqe⟩
  have hq1 : q.1 = n := by
    have := List.find?_some hq
    simpa using this
  have hmem := List.mem_of_find?_eq_some hq
  have : q = (n, v) := by
    cases q with
    | mk q1 q2 =>
      simp only at hq1 hqe
      rw [hq1, hqe]
  rw [← this]
  exact hmem

theorem acquireStep_acc (st st1 : ResourceIdSet × List (String × ResourceIds))
    (p : String × FixedPoint) (h : ResourceIdSet.acquireStep st p = some st1) :
    ∃ gr, grantShape gr ∧ st1.2 = st.2 ++ [(p.1, gr)] := by
  unfold ResourceIdSet.acquireStep at h
  split at h
  · exact Option.noConfusion h
  · split at h
    · exact Option.noConfusion h
    · rename_i pool hlook o2 r hacq
      simp only [Option.some_inj] at h
      refine ⟨r.1, ?_, ?_⟩
      · exact acquire_grantShape pool p.2 r.1 r.2
          (show pool.Acquire p.2 = some (r.1, r.2) from hacq)
      · rw [← h]

theorem foldlM_acquireStep_grants (req : List (String × FixedPoint)) :
    ∀ (st st2 : ResourceIdSet × List (String × ResourceIds)),
      req.foldlM ResourceIdSet.acquireStep st = some st2 →
      (∀ pr ∈ st.2, grantShape pr.2) →
      (∀ pr ∈ st2.2, grantShape pr.2) ∧
        alKeys st2.2 = alKeys st.2 ++ alKeys req := by
  induction req with
  | nil =>
    intro st st2 h hacc
    simp only [List.foldlM] at h
    cases h
    exact ⟨hacc, by simp [alKeys]⟩
  | cons p req ih =>
    intro st st2 h hacc
    rw [List.foldlM_cons] at h
    rcases option_bind_eq_some _ _ _ h with ⟨st1, hstep, hrest⟩
    rcases acquireStep_acc st st1 p hstep with ⟨gr, hgr, hacc2⟩
    have hacc1 : ∀ pr ∈ st1.2, grantShape pr.2 := by
      rw [hacc2]
      intro pr hpr
      rcases List.mem_append.mp hpr with h1 | h1
      · exact hacc pr h1
      · simp only [List.mem_singleton] at h1
        rw [h1]
        exact hgr
    rcases ih st1 st2 hrest hacc1 with ⟨h1, h2⟩
    refine ⟨h1, ?_⟩
    rw [h2, hacc2]
    simp [alKeys]

theorem releaseStep_lookup_ne (S S2 : ResourceIdSet)
    (p : String × ResourceIds) (name : String) (hne : p.1 ≠ name)
    (h : ResourceIdSet.releaseStep S p = some S2) :
    S2.lookup name = S.lookup name := by
  unfold ResourceIdSet.releaseStep at h
  split at h
  · exact Option.noConfusion h
  · split at h
    · simp only [Option.some_inj] at h
      rw [← h]
      show alGet (S.available_resources ++ [p]) name = S.lookup name
      rw [alGet_append]
      have hone : alGet [p] name = none := by
        rw [alGet_cons_neg p [] name hne]
        rfl
      rw [hone, Option.or_none]
      rfl
    · rename_i pool hlook
      rcases Option.map_eq_some'.mp h with ⟨pool1, hrelease, hS2⟩
      rw [← hS2]
      show alGet (alSet S.available_resources p.1 pool1) name =
        S.lookup name
      exact alGet_set_ne _ _ _ _ (fun hh => hne hh.symm)

theorem foldlM_releaseStep_lookup (M : List (String × ResourceIds)) :
    ∀ (S S2 : ResourceIdSet) (name : String), name ∉ alKeys M →
      M.foldlM ResourceIdSet.releaseStep S = some S2 →
      S2.lookup name = S.lookup name := by
  induction M with
  | nil =>
    intro S S2 name _ h
    simp only [List.foldlM] at h
    cases h
    rfl
  | cons p M ih =>
    intro S S2 name hn h
    rw [List.foldlM_cons] at h
    rcases option_bind_eq_some _ _ _ h with ⟨T, hstep, hrest⟩
    have hne : p.1 ≠ name := by
      intro he
      exact hn (by rw [← he]; exact List.mem_map.mpr ⟨p, List.mem_cons_self _ _, rfl⟩)
    have hnM : name ∉ alKeys M := fun hh =>
      hn (List.mem_cons_of_mem _ hh)
    rw [ih T S2 name hnM hrest]
    exact releaseStep_lookup_ne S T p name hne hstep

theorem releaseStep_insert (S S2 : ResourceIdSet) (name : String)
    (p : ResourceIds) (hnone : S.lookup name = none)
    (h : ResourceIdSet.releaseStep S (name, p) = some S2) :
    S2.lookup name = some p := by
  unfold ResourceIdSet.releaseStep at h
  split at h
  · exact Option.noConfusion h
  · split at h
    · simp only [Option.some_inj] at h
      rw [← h]
      show alGet (S.available_resources ++ [(name, p)]) name = some p
      rw [alGet_append]
      have h1 : alGet S.available_resources name = none := hnone
      rw [h1]
      show ((none : Option ResourceIds).or (alGet [(name, p)] name)) = some p
      rw [alGet_cons_pos (name, p) [] name rfl]
      rfl
    · rename_i pool hlook
      rw [show (name, p).1 = name from rfl, hnone] at hlook
      exact Option.noConfusion hlook

theorem ResourceIdSet.lookup_isSome_of_mem (S : ResourceIdSet) (n : String)
    (h : n ∈ S.keys) : ∃ p, S.lookup n = some p := by
  have h2 : alContains S.available_resources n = true :=
    (mem_alKeys_iff _ _).mp h
  rw [alContains_eq_isSome] at h2
  exact Option.isSome_iff_exists.mp h2

/-- C10: when `ResourceIdSet::Acquire` empties a resource's pool the key is
erased, discarding the pool's `total_capacity` and `decrement_backlog`
(pending shrink obligations included); a subsequent `Release` of the grant
re-creates the pool as the granted `ResourceIds`, whose backlog is 0 and
whose `total_capacity` is recomputed from the granted ids alone. -/
theorem c10_acquire_discards_shrink_state (S : ResourceIdSet)
    (req : ResourceSet) (S1 g S2 : ResourceIdSet) (name : String)
    (hnd : req.keys.Nodup) (hname : name ∈ req.keys)
    (hacq : S.Acquire req = some (S1, g))
    (hempty : S1.lookup name = none)
    (hrel : S1.Release g = some S2) :
    ∃ p, g.lookup name = some p ∧ S2.lookup name = some p ∧
      p.decrement_backlog = 0 ∧ p.total_capacity = p.TotalQuantity := by
  unfold ResourceIdSet.Acquire at hacq
  rcases Option.map_eq_some'.mp hacq with ⟨st2, hfold, hpair⟩
  have hg : (⟨st2.2⟩ : ResourceIdSet) = g := congrArg Prod.snd hpair
  rcases foldlM_acquireStep_grants req.entries (S, []) st2 hfold
    (by intro pr hpr; simp at hpr) with ⟨hshape, hkeys⟩
  have hkeys2 : g.keys = req.keys := by
    rw [← hg]
    show alKeys st2.2 = req.keys
    rw [hkeys]
    rfl
  have hnameg : name ∈ g.keys := by rw [hkeys2]; exact hname
  rcases ResourceIdSet.lookup_isSome_of_mem g name hnameg with ⟨p, hp⟩
  have hpmem : (name, p) ∈ g.available_resources := alGet_mem _ _ _ hp
  have hpshape : grantShape p := by
    rw [← hg] at hpmem
    exact hshape _ hpmem
  have hgnd : (alKeys g.available_resources).Nodup := by
    rw [← hg]
    show (alKeys st2.2).Nodup
    rw [hkeys]
    exact hnd
  rcases alKeys_split g.available_resources name hnameg with
    ⟨m1, p2, m2, heq, hcon⟩
  have hp2 : p2 = p := by
    have hlp : g.lookup name = some p2 := by
      show alGet g.available_resources name = some p2
      rw [heq, alGet_append_of_not_contains _ _ _ hcon,
        alGet_cons_pos (name, p2) m2 name rfl]
    rw [hp] at hlp
    exact (Option.some_inj.mp hlp).symm
  have hn1 : name ∉ alKeys m1 := by
    rw [mem_alKeys_iff]
    simp [hcon]
  have hn2 : name ∉ alKeys m2 := by
    have hnd2 := hgnd
    rw [heq] at hnd2
    unfold alKeys at hnd2
    rw [List.map_append, List.map_cons] at hnd2
    rcases List.nodup_append.mp hnd2 with ⟨_, hndc, _⟩
    intro hmem
    exact (List.nodup_cons.mp hndc).1 (by simpa [alKeys] using hmem)
  unfold ResourceIdSet.Release at hrel
  rw [heq, List.foldlM_append] at hrel
  rcases option_bind_eq_some _ _ _ hrel with ⟨T1, hfold1, hrest⟩
  rw [List.foldlM_cons] at hrest
  rcases option_bind_eq_some _ _ _ hrest with ⟨T2, hstep, hfold2⟩
  have hT1 : T1.lookup name = none := by
    rw [foldlM_releaseStep_lookup m1 S1 T1 name hn1 hfold1]
    exact hempty
  have hT2 : T2.lookup name = some p := by
    rw [hp2] at hstep
    exact releaseStep_insert T1 T2 name p hT1 hstep
  have hS2 : S2.lookup name = some p := by
    rw [foldlM_releaseStep_lookup m2 T2 S2 name hn2 hfold2]
    exact hT2
  exact ⟨p, hp, hS2, hpshape.1, hpshape.2⟩

/-- Witness for C10: a pool with a pending backlog of 5 is fully acquired
(key erased), then the grant is released back. -/
theorem c10_witness :
    (ResourceSet.keys ⟨[("CPU", FixedPoint.ofInt 1)]⟩).Nodup ∧
    "CPU" ∈ (ResourceSet.mk [("CPU", FixedPoint.ofInt 1)]).keys ∧
    (ResourceIdSet.Acquire ⟨[("CPU", ResourceIds.mk [0] [] ⟨10000⟩ 5)]⟩
        ⟨[("CPU", FixedPoint.ofInt 1)]⟩ =
      some (⟨[]⟩, ⟨[("CPU", ResourceIds.ofWholeIds [0])]⟩)) ∧
    (ResourceIdSet.lookup ⟨[]⟩ "CPU" = none) ∧
    (ResourceIdSet.Release ⟨[]⟩ ⟨[("CPU", ResourceIds.ofWholeIds [0])]⟩ =
      some ⟨[("CPU", ResourceIds.ofWholeIds [0])]⟩) ∧
    (∃ p, ResourceIdSet.lookup ⟨[("CPU", ResourceIds.ofWholeIds [0])]⟩
        "CPU" = some p ∧
      ResourceIdSet.lookup ⟨[("CPU", ResourceIds.ofWholeIds [0])]⟩ "CPU" =
        some p ∧
      p.decrement_backlog = 0 ∧ p.total_capacity = p.TotalQuantity) :=
  ⟨by decide, by decide, by decide, by decide, by decide,
   c10_acquire_discards_shrink_state
     ⟨[("CPU", ResourceIds.mk [0] [] ⟨10000⟩ 5)]⟩
     ⟨[("CPU", FixedPoint.ofInt 1)]⟩ ⟨[]⟩
     ⟨[("CPU", ResourceIds.ofWholeIds [0])]⟩
     ⟨[("CPU", ResourceIds.ofWholeIds [0])]⟩ "CPU"
     (by decide) (by decide) (by decide) (by decide) (by decide)⟩

/-! ## Claim C3: amended round trip -/

theorem roundtrip_whole (P : ResourceIds) (q : FixedPoint)
    (hle : FixedPoint.ofInt 1 ≤ q) (hwhole : q.isWholeFP = true)
    (hcnt : q.truncToInt ≤ (P.whole_ids.length : Int))
    (hb0 : P.decrement_backlog = 0) :
    ∃ g P1 P2, P.Acquire q = some (g, P1) ∧ P1.Release g = some P2 ∧
      P2.ObsEq P := by
  have hq1 : (1 : Int) ≤ q.truncToInt := by
    have hqi : (10000 : Int) ≤ q.i := by
      have : (FixedPoint.ofInt 1).i ≤ q.i := hle
      simpa [FixedPoint.ofInt] using this
    unfold FixedPoint.truncToInt
    rw [Int.tdiv_eq_ediv (by omega) (by omega)]
    rw [Int.le_ediv_iff_mul_le (by omega)]
    omega
  have hq0 : (0 : Int) ≤ q.truncToInt := by omega
  have hcast : ((q.truncToInt.toNat : Nat) : Int) = q.truncToInt :=
    Int.toNat_of_nonneg hq0
  have hnle : q.truncToInt.toNat ≤ P.whole_ids.length := by
    have h2 : ((q.truncToInt.toNat : Nat) : Int) ≤ (P.whole_ids.length : Int) := by
      rw [hcast]; exact hcnt
    exact_mod_cast h2
  have hacq : P.Acquire q =
      some (ResourceIds.ofWholeIds
          (P.whole_ids.reverse.take q.truncToInt.toNat),
        { P with whole_ids :=
            P.whole_ids.take (P.whole_ids.length - q.truncToInt.toNat) }) := by
    unfold ResourceIds.Acquire
    rw [if_pos hle, if_pos hwhole]
    dsimp only
    rw [if_pos (by rw [hcast]; exact hcnt)]
  have hglen : (P.whole_ids.reverse.take q.truncToInt.toNat).length =
      q.truncToInt.toNat := by
    rw [List.length_take, List.length_reverse]
    exact Nat.min_eq_left hnle
  refine ⟨ResourceIds.ofWholeIds (P.whole_ids.reverse.take q.truncToInt.toNat),
    { P with whole_ids :=
        P.whole_ids.take (P.whole_ids.length - q.truncToInt.toNat) },
    { P with
        whole_ids :=
          P.whole_ids.take (P.whole_ids.length - q.truncToInt.toNat) ++
            P.whole_ids.reverse.take q.truncToInt.toNat,
        decrement_backlog := 0 },
    hacq, ?_, ?_⟩
  · show (ResourceIds.ofWholeIds
        (P.whole_ids.reverse.take q.truncToInt.toNat)).fractional_ids.foldlM
        ResourceIds.releaseFracPair _ = _
    rw [show (ResourceIds.ofWholeIds
      (P.whole_ids.reverse.take q.truncToInt.toNat)).fractional_ids =
      ([] : List (Int × FixedPoint)) from rfl]
    rw [List.foldlM_nil]
    unfold ResourceIds.releaseWhole
    rw [if_pos ?hcond]
    case hcond =>
      show P.decrement_backlog <
        ((ResourceIds.ofWholeIds
          (P.whole_ids.reverse.take q.truncToInt.toNat)).whole_ids.length : Int)
      rw [hb0]
      rw [show (ResourceIds.ofWholeIds
        (P.whole_ids.reverse.take q.truncToInt.toNat)).whole_ids =
        P.whole_ids.reverse.take q.truncToInt.toNat from rfl]
      rw [hglen]
      omega
    show some _ = some _
    rw [Option.some_inj]
    show ResourceIds.mk _ _ _ _ = ResourceIds.mk _ _ _ _
    rw [show ({ P with whole_ids :=
        P.whole_ids.take (P.whole_ids.length - q.truncToInt.toNat)
        } : ResourceIds).decrement_backlog = P.decrement_backlog from rfl]
    rw [hb0]
    rw [show ((0 : Int)).toNat = 0 from rfl, List.drop_zero]
    rfl
  · refine ResourceIds.obsEq_of_perms _ _ ?_ (List.Perm.refl _)
    show (P.whole_ids.take (P.whole_ids.length - q.truncToInt.toNat) ++
      P.whole_ids.reverse.take q.truncToInt.toNat).Perm P.whole_ids
    have hrev : P.whole_ids.reverse.take q.truncToInt.toNat =
        (P.whole_ids.drop (P.whole_ids.length - q.truncToInt.toNat)).reverse := by
      have hsplit : P.whole_ids.reverse =
          (P.whole_ids.drop (P.whole_ids.length - q.truncToInt.toNat)).reverse ++
          (P.whole_ids.take (P.whole_ids.length - q.truncToInt.toNat)).reverse := by
        conv_lhs => rw [← List.take_append_drop
          (P.whole_ids.length - q.truncToInt.toNat) P.whole_ids]
        rw [List.reverse_append]
      rw [hsplit]
      refine List.take_left' ?_
      rw [List.length_reverse, List.length_drop]
      omega
    rw [hrev]
    have hperm := List.Perm.append_left
      (P.whole_ids.take (P.whole_ids.length - q.truncToInt.toNat))
      (List.reverse_perm
        (P.whole_ids.drop (P.whole_ids.length - q.truncToInt.toNat)))
    refine hperm.trans ?_
    rw [List.take_append_drop]

theorem getElem?_some_lt {α : Type} (l : List α) (j : Nat) (e : α)
    (h : l[j]? = some e) : j < l.length := by
  induction l generalizing j with
  | nil => simp at h
  | cons a l ih =>
    cases j with
    | zero => simp
    | succ j0 =>
      simp only [List.getElem?_cons_succ] at h
      simpa [List.length_cons] using Nat.succ_lt_succ (ih j0 h)

theorem releaseWhole_nil_exists (s : ResourceIds) :
    ∃ b, s.releaseWhole [] = { s with decrement_backlog := b } := by
  unfold ResourceIds.releaseWhole
  split
  · refine ⟨0, ?_⟩
    rw [List.drop_nil, List.append_nil]
  · exact ⟨s.decrement_backlog - ((([] : List Int).length : Nat) : Int), rfl⟩

theorem roundtrip_debit (P : ResourceIds) (q : FixedPoint) (j : Nat)
    (e : Int × FixedPoint) (hnotle : ¬ (FixedPoint.ofInt 1 ≤ q))
    (hwf : P.WfIds) (hj : P.fractional_ids[j]? = some e) (hq : q ≤ e.2)
    (hmin : ∀ k ek, k < j → P.fractional_ids[k]? = some ek → ¬ q ≤ ek.2) :
    ∃ g P1 P2, P.Acquire q = some (g, P1) ∧ P1.Release g = some P2 ∧
      P2.ObsEq P := by
  have hacq := acquire_frac_debit P q j e hnotle hj hq hmin
  have hjlen : j < P.fractional_ids.length := getElem?_some_lt _ _ _ hj
  have hemem : e ∈ P.fractional_ids := mem_of_getElem?_eq_some _ _ _ hj
  have he2 : (⟨0⟩ : FixedPoint) < e.2 ∧ e.2 < FixedPoint.ofInt 1 :=
    hwf.2.2 e hemem
  by_cases hz : e.2 - q = (⟨0⟩ : FixedPoint)
  · -- the debited entry is removed by tail swap, the grant is re-appended
    rw [if_pos hz] at hacq
    have hqe : q = e.2 := by
      rw [FixedPoint.ext_iff] at hz ⊢
      have : e.2.i - q.i = 0 := hz
      omega
    rcases releaseWhole_nil_exists
      ({ P with fractional_ids := swapRemove P.fractional_ids j } :
        ResourceIds) with ⟨b, hT⟩
    have hperm := swapRemove_perm_eraseIdx P.fractional_ids j hjlen
    have hnomem : ∀ f ∈ swapRemove P.fractional_ids j,
        (f.1 == (e.1, q).1) = false := by
      intro f hf
      have hf2 : f ∈ P.fractional_ids.eraseIdx j := hperm.mem_iff.mp hf
      have hf3 : f.1 ∈ (P.fractional_ids.eraseIdx j).map (fun p => p.1) :=
        List.mem_map.mpr ⟨f, hf2, rfl⟩
      have hne := not_mem_map_fst_eraseIdx P.fractional_ids j e hwf.1 hj
      have : f.1 ≠ e.1 := fun hh => hne (hh ▸ hf3)
      simpa using this
    have hfind : findFirstIdx (fun f => f.1 == (e.1, q).1)
        (swapRemove P.fractional_ids j) = none := by
      rw [findFirstIdx_none_iff]
      exact hnomem
    have hrel : ({ P with fractional_ids := swapRemove P.fractional_ids j } :
        ResourceIds).Release (ResourceIds.ofFracIds [(e.1, q)]) =
        some ⟨P.whole_ids, swapRemove P.fractional_ids j ++ [(e.1, q)],
          P.total_capacity, b⟩ := by
      rw [release_single_frac, hT]
      unfold ResourceIds.releaseFracPair
      rw [hfind]
    refine ⟨_, _, _, hacq, hrel, ?_⟩
    refine ResourceIds.obsEq_of_perms _ _ (List.Perm.refl _) ?_
    show (swapRemove P.fractional_ids j ++ [(e.1, q)]).Perm P.fractional_ids
    have h1 : (swapRemove P.fractional_ids j ++ [(e.1, q)]).Perm
        (P.fractional_ids.eraseIdx j ++ [(e.1, q)]) :=
      hperm.append_right _
    refine h1.trans ?_
    have h2 : ((e.1, q) : Int × FixedPoint) = e := by
      rw [hqe]
    rw [h2]
    exact perm_eraseIdx_concat P.fractional_ids j e hj
  · -- the debited entry stays, the grant merges back into it
    rw [if_neg hz] at hacq
    rcases releaseWhole_nil_exists
      ({ P with fractional_ids :=
          P.fractional_ids.set j (e.1, e.2 - q) } : ResourceIds) with ⟨b, hT⟩
    have hset_get : (P.fractional_ids.set j (e.1, e.2 - q))[j]? =
        some (e.1, e.2 - q) :=
      getElem?_set_self _ _ _ hjlen
    have hfind : findFirstIdx (fun f => f.1 == (e.1, q).1)
        (P.fractional_ids.set j (e.1, e.2 - q)) = some j := by
      have hnd : ((P.fractional_ids.set j (e.1, e.2 - q)).map
          (fun p => p.1)).Nodup := by
        rw [map_fst_set_same P.fractional_ids j e (e.2 - q) hj]
        exact hwf.1
      exact findFirstIdx_key_nodup _ j (e.1, e.2 - q) hnd hset_get
    have hmerged : (e.2 - q) + q = e.2 := by
      rw [FixedPoint.ext_iff]
      show e.2.i - q.i + q.i = e.2.i
      omega
    have hno1 : ¬ (FixedPoint.ofInt 1 < e.2) := by
      have := he2.2
      exact fun hc => absurd (Int.lt_trans this hc) (Int.lt_irrefl _)
    have hne1 : ¬ (e.2 = FixedPoint.ofInt 1) := by
      intro hc
      have h1 : e.2.i < (FixedPoint.ofInt 1).i := he2.2
      rw [hc] at h1
      exact Int.lt_irrefl _ h1
    have hrel : ({ P with fractional_ids :=
        P.fractional_ids.set j (e.1, e.2 - q) } : ResourceIds).Release
        (ResourceIds.ofFracIds [(e.1, q)]) =
        some ⟨P.whole_ids, P.fractional_ids, P.total_capacity, b⟩ := by
      rw [release_single_frac, hT]
      unfold ResourceIds.releaseFracPair
      dsimp only
      rw [hfind]
      dsimp only
      rw [hset_get]
      dsimp only
      rw [hmerged]
      rw [if_neg hno1, if_neg hne1]
      rw [List.set_set, Prod.mk.eta, set_self_of_getElem? _ _ _ hj]
    exact ⟨_, _, _, hacq, hrel, ResourceIds.obsEq_of_perms _ _
      (List.Perm.refl _) (List.Perm.refl _)⟩

theorem roundtrip_split (P : ResourceIds) (q : FixedPoint) (l0 : List Int)
    (id : Int) (hnotle : ¬ (FixedPoint.ofInt 1 ≤ q))
    (hwf : P.WfIds) (hb : P.decrement_backlog = 0)
    (hnone : ∀ e ∈ P.fractional_ids, ¬ q ≤ e.2)
    (hw : P.whole_ids = l0 ++ [id]) :
    ∃ g P1 P2, P.Acquire q = some (g, P1) ∧ P1.Release g = some P2 ∧
      P2.ObsEq P := by
  have hacq := acquire_frac_split P q l0 id hnotle hnone hw
  have hf1 : findFirstIdx (fun f => f.1 == ((id, q) : Int × FixedPoint).1)
      P.fractional_ids = none := by
    rw [findFirstIdx_none_iff]
    intro f hf
    have hidw : id ∈ P.whole_ids := by
      rw [hw]
      exact List.mem_append_right _ (List.mem_singleton.mpr rfl)
    have hnid := hwf.2.1 id hidw
    have hne : f.1 ≠ id := fun hh => hnid (List.mem_map.mpr ⟨f, hf, hh⟩)
    simpa using hne
  have hf2 : findFirstIdx (fun f => f.1 == ((id, q) : Int × FixedPoint).1)
      [(id, FixedPoint.ofInt 1 - q)] = some 0 := by
    simp [findFirstIdx]
  have hfind : findFirstIdx (fun f => f.1 == ((id, q) : Int × FixedPoint).1)
      (P.fractional_ids ++ [(id, FixedPoint.ofInt 1 - q)]) =
      some P.fractional_ids.length := by
    rw [findFirstIdx_append_none _ _ _ hf1, hf2, Option.map_some']
    simp
  have hget : (P.fractional_ids ++
      [(id, FixedPoint.ofInt 1 - q)])[P.fractional_ids.length]? =
      some (id, FixedPoint.ofInt 1 - q) :=
    List.getElem?_concat_length _ _
  have hmerged : (FixedPoint.ofInt 1 - q) + q = FixedPoint.ofInt 1 := by
    rw [FixedPoint.ext_iff]
    show (FixedPoint.ofInt 1).i - q.i + q.i = (FixedPoint.ofInt 1).i
    omega
  have hno1 : ¬ (FixedPoint.ofInt 1 < FixedPoint.ofInt 1) :=
    fun hc => absurd (hc : (FixedPoint.ofInt 1).i < (FixedPoint.ofInt 1).i)
      (Int.lt_irrefl _)
  have herase : (P.fractional_ids ++
      [(id, FixedPoint.ofInt 1 - q)]).eraseIdx P.fractional_ids.length =
      P.fractional_ids := by
    rw [List.eraseIdx_eq_take_drop_succ]
    rw [List.take_left' rfl]
    rw [List.drop_eq_nil_of_le (by simp), List.append_nil]
  have hrel : ({ P with
      whole_ids := l0,
      fractional_ids := P.fractional_ids ++ [(id, FixedPoint.ofInt 1 - q)] } :
      ResourceIds).Release (ResourceIds.ofFracIds [(id, q)]) =
      some ⟨l0 ++ [id], P.fractional_ids, P.total_capacity,
        P.decrement_backlog⟩ := by
    rw [release_single_frac, releaseWhole_nil_backlog_zero
      ({ P with
        whole_ids := l0,
        fractional_ids := P.fractional_ids ++
          [(id, FixedPoint.ofInt 1 - q)] } : ResourceIds) hb]
    unfold ResourceIds.releaseFracPair
    dsimp only
    rw [hfind]
    dsimp only
    rw [hget]
    dsimp only
    rw [hmerged]
    rw [if_neg hno1, if_pos rfl]
    rw [if_neg (by rw [hb]; exact Int.lt_irrefl 0), herase]
  refine ⟨_, _, _, hacq, hrel, ?_⟩
  refine ResourceIds.obsEq_of_perms _ _ ?_ (List.Perm.refl _)
  show (l0 ++ [id]).Perm P.whole_ids
  rw [hw]

theorem truncToInt_pos_of_one_le (q : FixedPoint)
    (h : FixedPoint.ofInt 1 ≤ q) : (1 : Int) ≤ q.truncToInt := by
  have hqi : (10000 : Int) ≤ q.i := by
    have : (FixedPoint.ofInt 1).i ≤ q.i := h
    simpa [FixedPoint.ofInt] using this
  unfold FixedPoint.truncToInt
  rw [Int.tdiv_eq_ediv (by omega) (by omega)]
  rw [Int.le_ediv_iff_mul_le (by omega)]
  omega

/-- C3 (corrected): `Release(Acquire(q))` restores the pool up to
permutation of the id sequences — *provided* the pool is well formed, the
requested quantity is reported available by `Contains`, and either the
decrement backlog is zero or the whole-id sequence is empty.  (The original
claim, with no backlog side condition, is refuted by
`c3_counterexample`: a pending decrement swallows released whole ids.) -/
theorem c3_acquire_release_round_trip (P : ResourceIds) (q : FixedPoint)
    (hwf : P.WfIds)
    (hside : P.decrement_backlog = 0 ∨ P.whole_ids = [])
    (hcontains : P.Contains q = some true) :
    ∃ g P1 P2, P.Acquire q = some (g, P1) ∧ P1.Release g = some P2 ∧
      P2.ObsEq P := by
  by_cases hle : FixedPoint.ofInt 1 ≤ q
  · by_cases hwhole : q.isWholeFP = true
    · have hcnt : q.truncToInt ≤ (P.whole_ids.length : Int) := by
        unfold ResourceIds.Contains at hcontains
        rw [if_pos hle, if_pos hwhole] at hcontains
        exact of_decide_eq_true (Option.some_inj.mp hcontains)
      have hb0 : P.decrement_backlog = 0 := by
        rcases hside with h | h
        · exact h
        · exfalso
          have h1 := truncToInt_pos_of_one_le q hle
          rw [h] at hcnt
          simp at hcnt
          omega
      exact roundtrip_whole P q hle hwhole hcnt hb0
    · exfalso
      unfold ResourceIds.Contains at hcontains
      rw [if_pos hle, if_neg hwhole] at hcontains
      exact Option.noConfusion hcontains
  · cases hfi : findFirstIdx (fun p => decide (q ≤ p.2)) P.fractional_ids with
    | some j =>
      obtain ⟨e, hj, hpe⟩ := findFirstIdx_some_getElem _ _ j hfi
      have hq : q ≤ e.2 := of_decide_eq_true hpe
      have hmin : ∀ k ek, k < j → P.fractional_ids[k]? = some ek →
          ¬ q ≤ ek.2 := by
        intro k ek hk hek
        exact of_decide_eq_false (findFirstIdx_min _ _ j hfi k ek hk hek)
      exact roundtrip_debit P q j e hle hwf hj hq hmin
    | none =>
      have hnone : ∀ e ∈ P.fractional_ids, ¬ q ≤ e.2 := by
        intro e he
        exact of_decide_eq_false ((findFirstIdx_none_iff _ _).mp hfi e he)
      have hany : P.fractional_ids.any (fun p => decide (q ≤ p.2)) =
          false := by
        rw [List.any_eq_false]
        intro e he
        simpa using hnone e he
      have hne : P.whole_ids ≠ [] := by
        unfold ResourceIds.Contains at hcontains
        rw [if_neg hle] at hcontains
        have h2 := Option.some_inj.mp hcontains
        rw [hany, Bool.or_false] at h2
        have h3 : P.whole_ids.isEmpty = false := by simpa using h2
        intro hc
        rw [hc] at h3
        simp at h3
      have hb0 : P.decrement_backlog = 0 := by
        rcases hside with h | h
        · exact h
        · exact absurd h hne
      obtain ⟨l0, id0, hw⟩ : ∃ l0 id0, P.whole_ids = l0 ++ [id0] :=
        ⟨P.whole_ids.dropLast, P.whole_ids.getLast hne,
          (List.dropLast_append_getLast hne).symm⟩
      exact roundtrip_split P q l0 id0 hle hwf hb0 hnone hw

/-- Witness for C3: the round trip at a concrete well-formed pool of
capacity 2 and the whole quantity 1. -/
theorem c3_witness :
    (ResourceIds.ofCapacity 2).WfIds ∧
    ((ResourceIds.ofCapacity 2).decrement_backlog = 0 ∨
      (ResourceIds.ofCapacity 2).whole_ids = []) ∧
    (ResourceIds.ofCapacity 2).Contains (FixedPoint.ofInt 1) = some true ∧
    (∃ g P1 P2,
      (ResourceIds.ofCapacity 2).Acquire (FixedPoint.ofInt 1) =
        some (g, P1) ∧ P1.Release g = some P2 ∧
      P2.ObsEq (ResourceIds.ofCapacity 2)) :=
  ⟨by decide, by decide, by decide,
    c3_acquire_release_round_trip (ResourceIds.ofCapacity 2)
      (FixedPoint.ofInt 1) (by decide) (by decide) (by decide)⟩

/-! ## Helpers for C5: preservation of no-double-holding -/

theorem mem_nonSentinel (l : List Int) (i : Int) :
    i ∈ nonSentinel l ↔ i ∈ l ∧ i ≠ -1 := by
  unfold nonSentinel
  rw [List.mem_filter]
  constructor
  · rintro ⟨h1, h2⟩
    exact ⟨h1, by simpa using h2⟩
  · rintro ⟨h1, h2⟩
    exact ⟨h1, by simpa using h2⟩

theorem nonSentinel_append (l1 l2 : List Int) :
    nonSentinel (l1 ++ l2) = nonSentinel l1 ++ nonSentinel l2 :=
  List.filter_append l1 l2

theorem nonSentinel_nodup_of_sublist (l1 l2 : List Int) (h : l1.Sublist l2)
    (hnd : (nonSentinel l2).Nodup) : (nonSentinel l1).Nodup :=
  List.Nodup.sublist (List.Sublist.filter _ h) hnd

theorem nonSentinel_nodup_of_perm (l1 l2 : List Int) (h : l1.Perm l2)
    (hnd : (nonSentinel l2).Nodup) : (nonSentinel l1).Nodup :=
  (List.Perm.nodup_iff (List.Perm.filter _ h)).mpr hnd

theorem not_mem_map_fst_eraseIdx_nonSentinel {β : Type} (l : List (Int × β))
    (j : Nat) (e : Int × β)
    (hnd : (nonSentinel (l.map (fun p => p.1))).Nodup)
    (hj : l[j]? = some e) (hns : e.1 ≠ -1) :
    e.1 ∉ (l.eraseIdx j).map (fun p => p.1) := by
  intro hmem
  rw [map_fst_eraseIdx] at hmem
  have hjm : (l.map (fun p => p.1))[j]? = some e.1 := by
    rw [List.getElem?_map, hj]
    rfl
  have hperm := perm_eraseIdx_concat (l.map (fun p => p.1)) j e.1 hjm
  have hcnt1 : 0 < List.count e.1 ((l.map (fun p => p.1)).eraseIdx j) :=
    List.count_pos_iff.mpr hmem
  have hcnt2 : 2 ≤ List.count e.1 (l.map (fun p => p.1)) := by
    rw [← hperm.count_eq e.1, List.count_append]
    have hone : List.count e.1 [e.1] = 1 := by simp
    omega
  have hcnt3 : List.count e.1 (nonSentinel (l.map (fun p => p.1))) =
      List.count e.1 (l.map (fun p => p.1)) := by
    unfold nonSentinel
    exact List.count_filter (by simpa using hns)
  have hle1 := List.nodup_iff_count_le_one.mp hnd e.1
  omega

theorem acquire_noDouble (s : ResourceIds) (q : FixedPoint)
    (g s1 : ResourceIds) (hnd : s.NoDouble)
    (h : s.Acquire q = some (g, s1)) : s1.NoDouble := by
  unfold ResourceIds.Acquire at h
  by_cases hle : FixedPoint.ofInt 1 ≤ q
  · rw [if_pos hle] at h
    by_cases hwq : q.isWholeFP = true
    · rw [if_pos hwq] at h
      dsimp only at h
      split at h
      · have hs1 := (Prod.mk.injEq _ _ _ _).mp (Option.some_inj.mp h)
        rw [← hs1.2]
        refine ⟨?_, hnd.2.1, ?_⟩
        · exact nonSentinel_nodup_of_sublist _ _ (List.take_sublist _ _) hnd.1
        · intro i hi hne
          exact hnd.2.2 i (List.take_subset _ _ hi) hne
      · exact Option.noConfusion h
    · rw [if_neg hwq] at h
      exact Option.noConfusion h
  · rw [if_neg hle] at h
    split at h
    · rename_i j hfi
      split at h
      · exact Option.noConfusion h
      · rename_i e hget
        dsimp only at h
        have hs1 := (Prod.mk.injEq _ _ _ _).mp (Option.some_inj.mp h)
        rw [← hs1.2]
        have hjlt : j < s.fractional_ids.length := getElem?_some_lt _ _ _ hget
        by_cases hz : e.2 - q = (⟨0⟩ : FixedPoint)
        · rw [if_pos hz]
          have hperm := (swapRemove_perm_eraseIdx s.fractional_ids j hjlt).map
            (fun p => p.1)
          refine ⟨hnd.1, ?_, ?_⟩
          · show (nonSentinel ((swapRemove s.fractional_ids j).map
              (fun p => p.1))).Nodup
            apply nonSentinel_nodup_of_perm _ _ hperm
            apply nonSentinel_nodup_of_sublist _ _ ?_ hnd.2.1
            show ((s.fractional_ids.eraseIdx j).map
              (fun p => p.1)).Sublist (fracKeys s)
            rw [map_fst_eraseIdx]
            exact List.eraseIdx_sublist _ j
          · intro i hi hne hmem
            have hmem2 : i ∈ fracKeys s := by
              rcases List.mem_map.mp hmem with ⟨p, hp, hpe⟩
              exact List.mem_map.mpr ⟨p, swapRemove_subset _ j hjlt p hp, hpe⟩
            exact hnd.2.2 i hi hne hmem2
        · rw [if_neg hz]
          refine ⟨hnd.1, ?_, ?_⟩
          · show (nonSentinel ((s.fractional_ids.set j
              (e.1, e.2 - q)).map (fun p => p.1))).Nodup
            rw [map_fst_set_same s.fractional_ids j e (e.2 - q) hget]
            exact hnd.2.1
          · intro i hi hne
            show i ∉ (s.fractional_ids.set j (e.1, e.2 - q)).map
              (fun p => p.1)
            rw [map_fst_set_same s.fractional_ids j e (e.2 - q) hget]
            exact hnd.2.2 i hi hne
    · rename_i hfi
      split at h
      · exact Option.noConfusion h
      · rename_i id0 hlast
        have hs1 := (Prod.mk.injEq _ _ _ _).mp (Option.some_inj.mp h)
        rw [← hs1.2]
        have hmemw : id0 ∈ s.whole_ids := List.mem_of_getLast?_eq_some hlast
        have hne' : s.whole_ids ≠ [] := by
          intro hc
          rw [hc] at hlast
          simp at hlast
        have hwdecomp : s.whole_ids.dropLast ++ [id0] = s.whole_ids := by
          have h1 := List.dropLast_append_getLast hne'
          have h2 : s.whole_ids.getLast hne' = id0 := by
            have h3 := List.getLast?_eq_getLast s.whole_ids hne'
            rw [h3] at hlast
            exact Option.some_inj.mp hlast
          rw [h2] at h1
          exact h1
        refine ⟨?_, ?_, ?_⟩
        · exact nonSentinel_nodup_of_sublist _ _ (List.dropLast_sublist _) hnd.1
        · show (nonSentinel ((s.fractional_ids ++
            [(id0, FixedPoint.ofInt 1 - q)]).map (fun p => p.1))).Nodup
          rw [List.map_append, nonSentinel_append]
          by_cases hid : id0 = -1
          · have hnil : nonSentinel ([(id0, FixedPoint.ofInt 1 - q)].map
                (fun p => p.1)) = [] := by
              simp [nonSentinel, hid]
            rw [hnil, List.append_nil]
            exact hnd.2.1
          · have hsing : nonSentinel ([(id0, FixedPoint.ofInt 1 - q)].map
                (fun p => p.1)) = [id0] := by
              simp [nonSentinel, hid]
            rw [hsing, List.nodup_append]
            refine ⟨hnd.2.1, List.nodup_singleton id0, ?_⟩
            intro x hx hx2
            have hxid : x = id0 := List.mem_singleton.mp hx2
            rw [mem_nonSentinel, hxid] at hx
            exact hnd.2.2 id0 hmemw hid hx.1
        · intro i hi hne
          show i ∉ (s.fractional_ids ++
            [(id0, FixedPoint.ofInt 1 - q)]).map (fun p => p.1)
          rw [List.map_append, List.mem_append]
          intro hc
          rcases hc with hc | hc
          · exact hnd.2.2 i ((List.dropLast_sublist _).subset hi) hne hc
          · have hiid : i = id0 := by simpa using hc
            have hid : id0 ≠ -1 := by
              rw [← hiid]
              exact hne
            have hnd1 := hnd.1
            rw [← hwdecomp, nonSentinel_append] at hnd1
            have hsing : nonSentinel [id0] = [id0] := by
              simp [nonSentinel, hid]
            rw [hsing, List.nodup_append] at hnd1
            have himem : i ∈ nonSentinel s.whole_ids.dropLast :=
              (mem_nonSentinel _ i).mpr ⟨hi, hne⟩
            exact hnd1.2.2 himem
              (by rw [hiid]; exact List.mem_singleton.mpr rfl)

theorem releaseFracPair_noDouble (t : ResourceIds) (p : Int × FixedPoint)
    (t1 : ResourceIds) (hnd : t.NoDouble)
    (hp : p.1 ≠ -1 → p.1 ∉ t.whole_ids)
    (h : t.releaseFracPair p = some t1) :
    t1.NoDouble ∧ (∀ x ∈ t1.whole_ids, x ∈ t.whole_ids ++ [p.1]) := by
  unfold ResourceIds.releaseFracPair at h
  split at h
  · rename_i hfi
    have ht1 := Option.some_inj.mp h
    rw [← ht1]
    have hnotk : p.1 ∉ fracKeys t := by
      intro hc
      rcases List.mem_map.mp hc with ⟨e, he, hee⟩
      have hfalse := (findFirstIdx_none_iff _ _).mp hfi e he
      rw [hee] at hfalse
      simp at hfalse
    constructor
    · refine ⟨hnd.1, ?_, ?_⟩
      · show (nonSentinel ((t.fractional_ids ++ [p]).map
          (fun p2 => p2.1))).Nodup
        rw [List.map_append, nonSentinel_append]
        by_cases hid : p.1 = -1
        · have hnil : nonSentinel ([p].map (fun p2 => p2.1)) = [] := by
            simp [nonSentinel, hid]
          rw [hnil, List.append_nil]
          exact hnd.2.1
        · have hsing : nonSentinel ([p].map (fun p2 => p2.1)) = [p.1] := by
            simp [nonSentinel, hid]
          rw [hsing, List.nodup_append]
          refine ⟨hnd.2.1, List.nodup_singleton _, ?_⟩
          intro x hx hx2
          have hxid : x = p.1 := List.mem_singleton.mp hx2
          rw [mem_nonSentinel, hxid] at hx
          exact hnotk hx.1
      · intro i hi hne
        show i ∉ (t.fractional_ids ++ [p]).map (fun p2 => p2.1)
        rw [List.map_append, List.mem_append]
        intro hc
        rcases hc with hc | hc
        · exact hnd.2.2 i hi hne hc
        · have hiid : i = p.1 := by simpa using hc
          have hpw : p.1 ∉ t.whole_ids := hp (by rw [← hiid]; exact hne)
          exact hpw (hiid ▸ hi)
    · intro x hx
      exact List.mem_append_left _ hx
  · rename_i j hfi
    split at h
    · exact Option.noConfusion h
    · rename_i e hget
      dsimp only at h
      obtain ⟨e2, hget2, hpe⟩ := findFirstIdx_some_getElem _ _ j hfi
      have hget3 := hget
      rw [hget2] at hget3
      have hee : e2 = e := Option.some_inj.mp hget3
      have hkey : e.1 = p.1 := by
        rw [hee] at hpe
        exact eq_of_beq hpe
      split at h
      · exact Option.noConfusion h
      · split at h
        · split at h
          · have ht1 := Option.some_inj.mp h
            rw [← ht1]
            constructor
            · refine ⟨hnd.1, ?_, ?_⟩
              · show (nonSentinel ((t.fractional_ids.eraseIdx j).map
                  (fun p2 => p2.1))).Nodup
                apply nonSentinel_nodup_of_sublist _ _ ?_ hnd.2.1
                show ((t.fractional_ids.eraseIdx j).map
                  (fun p2 => p2.1)).Sublist (fracKeys t)
                rw [map_fst_eraseIdx]
                exact List.eraseIdx_sublist _ j
              · intro i hi hne hc
                have hc2 : i ∈ (t.fractional_ids.eraseIdx j).map
                    (fun p2 => p2.1) := hc
                rw [map_fst_eraseIdx] at hc2
                exact hnd.2.2 i hi hne
                  ((List.eraseIdx_sublist _ j).subset hc2)
            · intro x hx
              exact List.mem_append_left _ hx
          · have ht1 := Option.some_inj.mp h
            rw [← ht1]
            constructor
            · refine ⟨?_, ?_, ?_⟩
              · show (nonSentinel (t.whole_ids ++ [p.1])).Nodup
                rw [nonSentinel_append]
                by_cases hid : p.1 = -1
                · have hnil : nonSentinel [p.1] = [] := by
                    simp [nonSentinel, hid]
                  rw [hnil, List.append_nil]
                  exact hnd.1
                · have hsing : nonSentinel [p.1] = [p.1] := by
                    simp [nonSentinel, hid]
                  rw [hsing, List.nodup_append]
                  refine ⟨hnd.1, List.nodup_singleton _, ?_⟩
                  intro x hx hx2
                  have hxid : x = p.1 := List.mem_singleton.mp hx2
                  rw [mem_nonSentinel, hxid] at hx
                  exact hp hid hx.1
              · show (nonSentinel ((t.fractional_ids.eraseIdx j).map
                  (fun p2 => p2.1))).Nodup
                apply nonSentinel_nodup_of_sublist _ _ ?_ hnd.2.1
                show ((t.fractional_ids.eraseIdx j).map
                  (fun p2 => p2.1)).Sublist (fracKeys t)
                rw [map_fst_eraseIdx]
                exact List.eraseIdx_sublist _ j
              · intro i hi hne hc
                have hc2 : i ∈ (t.fractional_ids.eraseIdx j).map
                    (fun p2 => p2.1) := hc
                rcases List.mem_append.mp hi with hi1 | hi1
                · have hc3 := hc2
                  rw [map_fst_eraseIdx] at hc3
                  exact hnd.2.2 i hi1 hne
                    ((List.eraseIdx_sublist _ j).subset hc3)
                · have hiid : i = p.1 := by simpa using hi1
                  have hens : e.1 ≠ -1 := by
                    rw [hkey, ← hiid]
                    exact hne
                  have hnm := not_mem_map_fst_eraseIdx_nonSentinel
                    t.fractional_ids j e hnd.2.1 hget hens
                  rw [hkey] at hnm
                  exact hnm (hiid ▸ hc2)
            · intro x hx
              exact hx
        · have ht1 := Option.some_inj.mp h
          rw [← ht1]
          constructor
          · refine ⟨hnd.1, ?_, ?_⟩
            · show (nonSentinel ((t.fractional_ids.set j
                (e.1, e.2 + p.2)).map (fun p2 => p2.1))).Nodup
              rw [map_fst_set_same t.fractional_ids j e (e.2 + p.2) hget]
              exact hnd.2.1
            · intro i hi hne
              show i ∉ (t.fractional_ids.set j (e.1, e.2 + p.2)).map
                (fun p2 => p2.1)
              rw [map_fst_set_same t.fractional_ids j e (e.2 + p.2) hget]
              exact hnd.2.2 i hi hne
          · intro x hx
            exact List.mem_append_left _ hx

theorem foldlM_releaseFracPair_noDouble (L : List (Int × FixedPoint)) :
    ∀ t t1 : ResourceIds, t.NoDouble →
      (∀ p ∈ L, p.1 ≠ -1 → p.1 ∉ t.whole_ids) →
      (nonSentinel (L.map (fun p => p.1))).Nodup →
      L.foldlM ResourceIds.releaseFracPair t = some t1 → t1.NoDouble := by
  induction L with
  | nil =>
    intro t t1 hnd _ _ hfold
    rw [List.foldlM_nil] at hfold
    have ht := Option.some_inj.mp hfold
    rw [← ht]
    exact hnd
  | cons p L ih =>
    intro t t1 hnd hwhole hLnd hfold
    rw [List.foldlM_cons] at hfold
    cases hstep : t.releaseFracPair p with
    | none =>
      rw [hstep, option_none_bind_eq] at hfold
      exact Option.noConfusion hfold
    | some t2 =>
      rw [hstep, option_some_bind_eq] at hfold
      obtain ⟨hnd2, hsub⟩ := releaseFracPair_noDouble t p t2 hnd
        (hwhole p (List.mem_cons_self p L)) hstep
      refine ih t2 t1 hnd2 ?_ ?_ hfold
      · intro p2 hp2 hns hc
        have hmem := hsub p2.1 hc
        rcases List.mem_append.mp hmem with h1 | h1
        · exact hwhole p2 (List.mem_cons_of_mem p hp2) hns h1
        · have hpp : p2.1 = p.1 := List.mem_singleton.mp h1
          have hpns : p.1 ≠ -1 := by
            rw [← hpp]
            exact hns
          have hcons : nonSentinel (p.1 :: L.map (fun p3 => p3.1)) =
              p.1 :: nonSentinel (L.map (fun p3 => p3.1)) :=
            List.filter_cons_of_pos (by simpa using hpns)
          have hLnd2 : (p.1 :: nonSentinel (L.map (fun p3 => p3.1))).Nodup := by
            rw [← hcons]
            exact hLnd
          rw [List.nodup_cons] at hLnd2
          have hin : p2.1 ∈ nonSentinel (L.map (fun p3 => p3.1)) :=
            (mem_nonSentinel _ _).mpr ⟨List.mem_map.mpr ⟨p2, hp2, rfl⟩, hns⟩
          exact hLnd2.1 (hpp ▸ hin)
      · apply nonSentinel_nodup_of_sublist _ _ ?_ hLnd
        show (L.map (fun p3 => p3.1)).Sublist
          (p.1 :: L.map (fun p3 => p3.1))
        exact List.sublist_cons_self _ _

theorem releaseWhole_noDouble (s : ResourceIds) (ids : List Int)
    (hnd : s.NoDouble) (hids : (nonSentinel ids).Nodup)
    (hdisj : ∀ i ∈ ids, i ≠ -1 → i ∉ s.whole_ids ∧ i ∉ fracKeys s) :
    (s.releaseWhole ids).NoDouble ∧
    (∀ x ∈ (s.releaseWhole ids).whole_ids, x ∈ s.whole_ids ++ ids) := by
  unfold ResourceIds.releaseWhole
  split
  · refine ⟨⟨?_, hnd.2.1, ?_⟩, ?_⟩
    · show (nonSentinel (s.whole_ids ++
        ids.drop s.decrement_backlog.toNat)).Nodup
      rw [nonSentinel_append, List.nodup_append]
      refine ⟨hnd.1,
        nonSentinel_nodup_of_sublist _ _ (List.drop_sublist _ _) hids, ?_⟩
      intro x hx hx2
      rw [mem_nonSentinel] at hx hx2
      have hxids : x ∈ ids := List.drop_subset _ _ hx2.1
      exact (hdisj x hxids hx.2).1 hx.1
    · intro i hi hne
      rcases List.mem_append.mp hi with h1 | h1
      · exact hnd.2.2 i h1 hne
      · exact (hdisj i (List.drop_subset _ _ h1) hne).2
    · intro x hx
      rcases List.mem_append.mp hx with h1 | h1
      · exact List.mem_append_left _ h1
      · exact List.mem_append_right _ (List.drop_subset _ _ h1)
  · exact ⟨⟨hnd.1, hnd.2.1, hnd.2.2⟩,
      fun x hx => List.mem_append_left _ hx⟩

theorem release_noDouble (s g s1 : ResourceIds) (hnd : s.NoDouble)
    (hok : s.GrantOk g) (h : s.Release g = some s1) : s1.NoDouble := by
  unfold ResourceIds.Release at h
  obtain ⟨hw_nd, hw_sub⟩ := releaseWhole_noDouble s g.whole_ids hnd
    hok.1.1 (fun i hi hne => hok.2.1 i hi hne)
  refine foldlM_releaseFracPair_noDouble g.fractional_ids
    (s.releaseWhole g.whole_ids) s1 hw_nd ?_ hok.1.2.1 h
  intro p hp hns hc
  have hmem := hw_sub p.1 hc
  have hkey : p.1 ∈ fracKeys g := List.mem_map.mpr ⟨p, hp, rfl⟩
  rcases List.mem_append.mp hmem with h1 | h1
  · exact (hok.2.2 p.1 hkey hns) h1
  · exact hok.1.2.2 p.1 h1 hns hkey

theorem increaseCapacity_noDouble (s : ResourceIds) (inc : Int)
    (hnd : s.NoDouble) : (s.IncreaseCapacity inc).NoDouble := by
  unfold ResourceIds.IncreaseCapacity
  dsimp only
  split
  · refine ⟨?_, hnd.2.1, ?_⟩
    · show (nonSentinel (s.whole_ids ++
        List.replicate (max 0 (inc - s.decrement_backlog)).toNat
          (-1 : Int))).Nodup
      rw [nonSentinel_append]
      have hrep : nonSentinel (List.replicate
          (max 0 (inc - s.decrement_backlog)).toNat (-1 : Int)) = [] := by
        unfold nonSentinel
        rw [List.filter_replicate]
        rw [if_neg (by simp)]
      rw [hrep, List.append_nil]
      exact hnd.1
    · intro i hi hne
      rcases List.mem_append.mp hi with h1 | h1
      · exact hnd.2.2 i h1 hne
      · exact absurd (List.eq_of_mem_replicate h1) hne
  · exact ⟨hnd.1, hnd.2.1, hnd.2.2⟩

theorem decreaseCapacity_noDouble (s : ResourceIds) (dec : Int)
    (s1 : ResourceIds) (hnd : s.NoDouble)
    (h : s.DecreaseCapacity dec = some s1) : s1.NoDouble := by
  unfold ResourceIds.DecreaseCapacity at h
  dsimp only at h
  split at h
  · exact Option.noConfusion h
  · rename_i r hacq
    obtain ⟨g1, t1⟩ := r
    have hs1 := Option.some_inj.mp h
    rw [← hs1]
    show t1.NoDouble
    by_cases hc : s.TotalQuantity.truncToInt < dec
    · rw [if_pos hc, if_pos hc] at hacq
      exact acquire_noDouble
        { s with decrement_backlog :=
            s.decrement_backlog + (dec - s.TotalQuantity.truncToInt) }
        (FixedPoint.ofInt s.TotalQuantity.truncToInt) g1 t1 hnd hacq
    · rw [if_neg hc, if_neg hc] at hacq
      exact acquire_noDouble s (FixedPoint.ofInt dec) g1 t1 hnd hacq

theorem updateCapacity_noDouble (s : ResourceIds) (n : Int)
    (s1 : ResourceIds) (hnd : s.NoDouble)
    (h : s.UpdateCapacity n = some s1) : s1.NoDouble := by
  unfold ResourceIds.UpdateCapacity at h
  split at h
  · exact Option.noConfusion h
  · dsimp only at h
    split at h
    · exact decreaseCapacity_noDouble s _ s1 hnd h
    · have hs1 := Option.some_inj.mp h
      rw [← hs1]
      exact increaseCapacity_noDouble s _ hnd

theorem ofCapacity_noDouble (n : Int) :
    (ResourceIds.ofCapacity n).NoDouble := by
  unfold ResourceIds.ofCapacity
  dsimp only
  refine ⟨?_, ?_, ?_⟩
  · unfold nonSentinel
    apply List.Nodup.filter
    have hflat : ((List.range n.toNat).flatMap fun a => [(a : Int)]) =
        (List.range n.toNat).map Int.ofNat := by
      generalize List.range n.toNat = l
      induction l with
      | nil => rfl
      | cons a l ih =>
        simp [List.flatMap] at ih ⊢
        exact ih
    simp only [List.map_id_fun', id]
    show ((List.range n.toNat).flatMap fun a => [(a : Int)]).Nodup
    rw [hflat]
    apply List.Nodup.map ?_ (List.nodup_range n.toNat)
    intro a b hab
    exact Int.ofNat.inj hab
  · show (nonSentinel (([] : List (Int × FixedPoint)).map
      (fun p => p.1))).Nodup
    simp [nonSentinel]
  · intro i hi hne
    show i ∉ ([] : List (Int × FixedPoint)).map (fun p => p.1)
    simp

/-- C5 (corrected): physical ids are never double-held, in the amended
sense that excludes the `-1` dynamic-capacity sentinel: a freshly
constructed pool satisfies `NoDouble` (each non-sentinel id appears at
most once across the whole-id and fractional-id sequences), and every
public mutating operation (`Acquire`, `Release` of a proper grant,
`UpdateCapacity`) preserves `NoDouble`.  (The original claim, over all
ids, is refuted by `c5_counterexample`: `IncreaseCapacity` duplicates
the sentinel `-1`.) -/
theorem c5_no_double_holding :
    (∀ n : Int, (ResourceIds.ofCapacity n).NoDouble) ∧
    (∀ s s1 : ResourceIds, s.NoDouble → ResourceIds.Step s s1 →
      s1.NoDouble) := by
  refine ⟨ofCapacity_noDouble, fun s s1 hnd hstep => ?_⟩
  cases hstep with
  | acquire q g s1 h => exact acquire_noDouble _ q g _ hnd h
  | release g s1 hok h => exact release_noDouble _ g _ hnd hok h
  | update n s1 h => exact updateCapacity_noDouble _ n _ hnd h

/-- Witness for C5: the `UpdateCapacity` transition of the counterexample
preserves `NoDouble` (the duplicated ids are sentinels). -/
theorem c5_witness :
    (ResourceIds.ofCapacity 1).NoDouble ∧
    ResourceIds.NoDouble
      { whole_ids := [0, -1, -1], fractional_ids := [],
        total_capacity := ⟨30000⟩, decrement_backlog := 0 } :=
  ⟨by decide,
    c5_no_double_holding.2 (ResourceIds.ofCapacity 1)
      { whole_ids := [0, -1, -1], fractional_ids := [],
        total_capacity := ⟨30000⟩, decrement_backlog := 0 }
      (by decide)
      (ResourceIds.Step.update _ 3 _ (by decide))⟩

end RaySched
